import Mathlib

/-!
Verification of the front-matter parser (`src/matter.rs`, `src/entity.rs`).

Strings are embedded as `List Char`.  Every operation below is translated
from the Rust standard-library functions used by the source
(`str::trim_end`, `str::trim`, `str::lines`, `str::split_once`,
`str::strip_suffix`, `str::trim_matches`, byte length `str::len`) and from
the regex `(?m)^\s*#[^\n]+` applied with `replace_all(.., "")`.
A Rust panic (the two `.expect(..)` calls in `Matter::parse`) is embedded
as `Option.none`: the embedded `parse` returns `none` exactly when the
source program would panic.

The format engine (trait `Engine`, not part of the two source files) is
kept abstract: at the call site `parsed_entity.data = Some(T::parse(&matter))`
it is an infallible function from the captured text to a value, so the
embedding takes an arbitrary function `e : List Char → α` as the engine.
-/

namespace GrayMatter

/-- The Unicode `White_Space` set: the exact predicate behind Rust's
`char::is_whitespace` and the regex class `\s` of the `regex` crate. -/
def rustIsWhitespace (c : Char) : Bool :=
  c == '\t' || c == '\n' || c == '\x0b' || c == '\x0c' || c == '\r' || c == ' ' ||
  c == '\u0085' || c == '\u00A0' || c == '\u1680' ||
  c == '\u2000' || c == '\u2001' || c == '\u2002' || c == '\u2003' ||
  c == '\u2004' || c == '\u2005' || c == '\u2006' || c == '\u2007' ||
  c == '\u2008' || c == '\u2009' || c == '\u200A' ||
  c == '\u2028' || c == '\u2029' || c == '\u202F' || c == '\u205F' || c == '\u3000'

/-- Rust `str::trim_start` (not used by the source directly, but `trim` is
built from it). -/
def trimStart (l : List Char) : List Char := l.dropWhile rustIsWhitespace

/-- Rust `str::trim_end`: remove trailing whitespace. -/
def trimEnd (l : List Char) : List Char := (l.reverse.dropWhile rustIsWhitespace).reverse

/-- Rust `str::trim`: remove leading and trailing whitespace. -/
def trim (l : List Char) : List Char := trimStart (trimEnd l)

/-- Rust `str::trim_matches('\n')`: remove leading and trailing `'\n'`. -/
def trimMatchesNL (l : List Char) : List Char :=
  ((l.dropWhile (fun c => c == '\n')).reverse.dropWhile (fun c => c == '\n')).reverse

/-- Rust `str::strip_suffix`: `some` of the text with the suffix removed when
the suffix is present, `none` otherwise. -/
def stripSuffix (l d : List Char) : Option (List Char) :=
  if d.length ≤ l.length ∧ l.drop (l.length - d.length) = d then
    some (l.take (l.length - d.length))
  else none

/-- Rust `str::len`: the UTF-8 byte length. -/
def rustLen (l : List Char) : Nat := (l.map Char.utf8Size).sum

/-- Rust `str::split_once('\n')`: split at the first newline. -/
def splitOnceNL : List Char → Option (List Char × List Char)
  | [] => none
  | c :: cs =>
    if c = '\n' then some ([], cs)
    else
      match splitOnceNL cs with
      | none => none
      | some (a, b) => some (c :: a, b)

/-- Split at every `'\n'` (the separators are not kept).  Helper for the
embedding of Rust `str::lines`. -/
def splitNL : List Char → List (List Char)
  | [] => [[]]
  | c :: cs =>
    match splitNL cs with
    | [] => [[c]]
    | l :: ls => if c = '\n' then [] :: l :: ls else (c :: l) :: ls

/-- Remove a single trailing `'\r'`, as Rust `str::lines` does on every line
terminated by `"\r\n"`. -/
def stripCR (l : List Char) : List Char :=
  if l.getLast? = some '\r' then l.dropLast else l

/-- Rust `str::lines`: split at `'\n'` or `"\r\n"`; a final line terminator
produces no extra empty line; a trailing `'\r'` with no following `'\n'`
is kept. -/
def rlines (s : List Char) : List (List Char) :=
  if (splitNL s).getLast? = some [] then (splitNL s).dropLast.map stripCR
  else (splitNL s).dropLast.map stripCR ++ (splitNL s).getLast?.toList

/-- One attempted match of the regex `^\s*#[^\n]+` at a line-start position:
`some rest` is the text after the (leftmost, greedy) match, `none` means the
regex does not match here.  `\s*` may cross newlines; `[^\n]+` needs at least
one non-newline character after `'#'`. -/
def commentMatch (cs : List Char) : Option (List Char) :=
  match cs.dropWhile rustIsWhitespace with
  | a :: b :: rest =>
      if a = '#' ∧ b ≠ '\n' then some ((b :: rest).dropWhile (fun x => !(x == '\n')))
      else none
  | _ => none

/-- Fuelled scanner for `Regex::replace_all` of `(?m)^\s*#[^\n]+` with `""`:
walk the text; at every position where `(?m)^` holds (start of text, or just
after a `'\n'`) try `commentMatch` and drop the matched span, otherwise copy
the character.  The fuel only serves structural recursion; `stripComments`
supplies enough of it for the scan to complete. -/
def stripCommentsAux : Nat → Bool → List Char → List Char
  | 0, _, cs => cs
  | _ + 1, _, [] => []
  | fuel + 1, atStart, c :: cs =>
    if atStart then
      match commentMatch (c :: cs) with
      | some rest => stripCommentsAux fuel false rest
      | none => c :: stripCommentsAux fuel (c == '\n') cs
    else c :: stripCommentsAux fuel (c == '\n') cs

/-- `comment_re.replace_all(&acc, "")` for `comment_re = (?m)^\s*#[^\n]+`. -/
def stripComments (cs : List Char) : List Char :=
  stripCommentsAux (cs.length + 1) true cs

/-- `enum Part` of `matter.rs`. -/
inductive Part : Type
  | Matter : Part
  | MaybeExcerpt : Part
  | Content : Part
deriving DecidableEq, Repr

/-- `ParsedEntity` of `entity.rs` (field `data` generic in the engine's
value type). -/
structure ParsedEntity (α : Type) : Type where
  data : Option α
  content : List Char
  excerpt : Option (List Char)
  orig : List Char
  matter : List Char
deriving DecidableEq, Repr

/-- The mutable loop state of `Matter::parse`: `looking_at`, `acc`, and the
three result fields assigned inside the loop. -/
structure ScanState (α : Type) : Type where
  part : Part
  acc : List Char
  data : Option α
  matter : List Char
  excerpt : Option (List Char)
deriving DecidableEq, Repr

/-- One iteration of the `for line in lines` loop of `Matter::parse`.
`none` embeds a panic of one of the two `.expect(..)` calls. -/
def scanLine (e : List Char → α) (delimiter excerptDelim : List Char)
    (st : ScanState α) (line : List Char) : Option (ScanState α) :=
  match st.part with
  | Part.Matter =>
    if trimEnd line = delimiter then
      match stripSuffix (trim (stripComments (st.acc ++ '\n' :: line))) delimiter with
      | none => none
      | some s =>
        if trimMatchesNL s = [] then
          some ⟨Part.MaybeExcerpt, [], st.data, st.matter, st.excerpt⟩
        else
          some ⟨Part.MaybeExcerpt, [], some (e (trimMatchesNL s)), trimMatchesNL s, st.excerpt⟩
    else some ⟨Part.Matter, st.acc ++ '\n' :: line, st.data, st.matter, st.excerpt⟩
  | Part.MaybeExcerpt =>
    if trimEnd line = excerptDelim then
      match stripSuffix (trim (st.acc ++ '\n' :: line)) excerptDelim with
      | none => none
      | some s =>
        some ⟨Part.Content, st.acc ++ '\n' :: line, st.data, st.matter, some (trimMatchesNL s)⟩
    else some ⟨Part.MaybeExcerpt, st.acc ++ '\n' :: line, st.data, st.matter, st.excerpt⟩
  | Part.Content => some ⟨Part.Content, st.acc ++ '\n' :: line, st.data, st.matter, st.excerpt⟩

/-- Assembly of the returned `ParsedEntity` from the final loop state
(`parsed_entity.content = acc.trim().to_string()` and the subsequent
`parsed_entity`), propagating a panic (`none`) of the loop. -/
def finalize (input : List Char) : Option (ScanState α) → Option (ParsedEntity α)
  | none => none
  | some st => some ⟨st.data, trim st.acc, st.excerpt, input, st.matter⟩

/-- `Matter::parse` of `matter.rs`, for a parser with configuration
`delimiter`/`excerptDelimiter` bound to the engine `e`.  Returns `none`
exactly when the source would panic. -/
def parse (e : List Char → α) (delimiter : List Char)
    (excerptDelimiter : Option (List Char)) (input : List Char) :
    Option (ParsedEntity α) :=
  if input = [] ∨ rustLen input ≤ rustLen delimiter then
    some ⟨none, [], none, input, []⟩
  else
    let excerptDelim := excerptDelimiter.getD delimiter
    let start :=
      match splitOnceNL input with
      | some (firstLine, rest) =>
        if trimEnd firstLine = delimiter then (Part.Matter, rlines rest)
        else (Part.MaybeExcerpt, rlines input)
      | none => (Part.MaybeExcerpt, rlines input)
    finalize input
      (start.2.foldlM (scanLine e delimiter excerptDelim) ⟨start.1, [], none, [], none⟩)

/-! ### Whitespace, trimming and suffix-stripping facts -/

/-- Every character of `l` is Unicode whitespace. -/
def allWs (l : List Char) : Prop := ∀ c ∈ l, rustIsWhitespace c = true

instance instDecidableAllWs (l : List Char) : Decidable (allWs l) := by
  unfold allWs; infer_instance

lemma allWs_nil : allWs [] := by intro c hc; cases hc

lemma dropWhile_ws_append {a b : List Char} (ha : allWs a) :
    (a ++ b).dropWhile rustIsWhitespace = b.dropWhile rustIsWhitespace :=
  List.dropWhile_append_of_pos fun c hc => ha c hc

lemma dropWhile_append_of_ne {p : Char → Bool} {a : List Char} (b : List Char)
    (h : a.dropWhile p ≠ []) : (a ++ b).dropWhile p = a.dropWhile p ++ b := by
  rw [List.dropWhile_append, if_neg]
  simpa using h

lemma head?_dropWhile_not {p : Char → Bool} :
    ∀ (l : List Char) (c : Char), (l.dropWhile p).head? = some c → p c = false := by
  intro l
  induction l with
  | nil => intro c h; cases h
  | cons a t ih =>
    intro c h
    by_cases hp : p a
    · rw [List.dropWhile_cons_of_pos hp] at h
      exact ih c h
    · rw [List.dropWhile_cons_of_neg hp] at h
      cases h
      exact Bool.of_not_eq_true hp

lemma trimEnd_decomp {l d : List Char} (h : trimEnd l = d) :
    ∃ t, l = d ++ t ∧ allWs t := by
  refine ⟨(l.reverse.takeWhile rustIsWhitespace).reverse, ?_, ?_⟩
  · have h3 : l = (l.reverse.dropWhile rustIsWhitespace).reverse ++
        (l.reverse.takeWhile rustIsWhitespace).reverse := by
      rw [← List.reverse_append, List.takeWhile_append_dropWhile, List.reverse_reverse]
    conv_lhs => rw [h3]
    unfold trimEnd at h
    rw [h]
  · intro c hc
    exact List.mem_takeWhile_imp (List.mem_reverse.1 hc)

lemma trimEnd_getLast_not_ws {l d : List Char} (h : trimEnd l = d) :
    ∀ c, d.getLast? = some c → rustIsWhitespace c = false := by
  intro c hc
  have hrev : d.reverse = l.reverse.dropWhile rustIsWhitespace := by
    unfold trimEnd at h
    rw [← h, List.reverse_reverse]
  have hh : (l.reverse.dropWhile rustIsWhitespace).head? = some c := by
    rw [← hrev, List.head?_reverse, hc]
  exact head?_dropWhile_not _ _ hh

lemma trimEnd_eq_self {l : List Char}
    (h : ∀ c, l.getLast? = some c → rustIsWhitespace c = false) : trimEnd l = l := by
  cases hl : l.getLast? with
  | none =>
    have : l = [] := List.getLast?_eq_none_iff.1 hl
    subst this; rfl
  | some c =>
    rcases List.getLast?_eq_some_iff.1 hl with ⟨y, rfl⟩
    unfold trimEnd
    rw [List.reverse_append, List.reverse_singleton, List.singleton_append,
      List.dropWhile_cons_of_neg (by rw [h c hl]; simp)]
    simp

lemma trimEnd_append_ws {x t : List Char} (ht : allWs t) : trimEnd (x ++ t) = trimEnd x := by
  unfold trimEnd
  rw [List.reverse_append, dropWhile_ws_append]
  intro c hc
  exact ht c (List.mem_reverse.1 hc)

lemma trim_append_ws_right {l t : List Char} (ht : allWs t) : trim (l ++ t) = trim l := by
  unfold trim
  rw [trimEnd_append_ws ht]

lemma trim_cons_ws {c : Char} {l : List Char} (hc : rustIsWhitespace c = true) :
    trim (c :: l) = trim l := by
  unfold trim trimEnd trimStart
  rw [show (c :: l).reverse = l.reverse ++ [c] from by simp, List.dropWhile_append]
  by_cases h : (l.reverse.dropWhile rustIsWhitespace).isEmpty
  · rw [if_pos h, List.dropWhile_cons_of_pos hc]
    have h0 : l.reverse.dropWhile rustIsWhitespace = [] := by simpa using h
    rw [h0]
    rfl
  · rw [if_neg h, List.reverse_append, List.reverse_singleton, List.singleton_append,
      List.dropWhile_cons_of_pos hc]

lemma trim_append_ws_left {w l : List Char} (hw : allWs w) : trim (w ++ l) = trim l := by
  induction w with
  | nil => rfl
  | cons c t ih =>
    rw [List.cons_append, trim_cons_ws (hw c (by simp))]
    exact ih fun x hx => hw x (by simp [hx])

lemma stripSuffix_append (y d : List Char) : stripSuffix (y ++ d) d = some y := by
  unfold stripSuffix
  have hlen : (y ++ d).length - d.length = y.length := by simp
  rw [if_pos]
  · rw [hlen, List.take_left]
  · exact ⟨by simp, by rw [hlen, List.drop_left]⟩

lemma stripSuffix_nil (l : List Char) : stripSuffix l [] = some l := by
  unfold stripSuffix
  rw [if_pos ⟨Nat.zero_le _, by simp⟩]
  simp

lemma reverse_dropWhile_nl_eq_self {l : List Char}
    (h2 : ∀ c, l.getLast? = some c → c ≠ '\n') :
    (l.reverse.dropWhile (fun c => c == '\n')).reverse = l := by
  cases hl : l.getLast? with
  | none =>
    have : l = [] := List.getLast?_eq_none_iff.1 hl
    subst this; rfl
  | some c =>
    rcases List.getLast?_eq_some_iff.1 hl with ⟨y, rfl⟩
    rw [List.reverse_append, List.reverse_singleton, List.singleton_append,
      List.dropWhile_cons_of_neg (by simpa using h2 c hl)]
    simp

lemma trimMatchesNL_eq_self {l : List Char}
    (h1 : ∀ c, l.head? = some c → c ≠ '\n')
    (h2 : ∀ c, l.getLast? = some c → c ≠ '\n') : trimMatchesNL l = l := by
  cases l with
  | nil => rfl
  | cons a t =>
    unfold trimMatchesNL
    rw [List.dropWhile_cons_of_neg (by simpa using h1 a rfl)]
    exact reverse_dropWhile_nl_eq_self h2

lemma trimMatchesNL_append_nl {l : List Char}
    (h1 : ∀ c, l.head? = some c → c ≠ '\n')
    (h2 : ∀ c, l.getLast? = some c → c ≠ '\n') : trimMatchesNL (l ++ ['\n']) = l := by
  cases l with
  | nil => rfl
  | cons a t =>
    unfold trimMatchesNL
    rw [List.cons_append, List.dropWhile_cons_of_neg (by simpa using h1 a rfl),
      show a :: (t ++ ['\n']) = (a :: t) ++ ['\n'] from by simp,
      List.reverse_append, List.reverse_singleton, List.singleton_append,
      List.dropWhile_cons_of_pos (by simp)]
    exact reverse_dropWhile_nl_eq_self h2

/-! ### Line splitting and reassembly -/

/-- The accumulator built by the scan loop over a list of lines:
`"\n" + line` appended for every line. -/
def flattenR (L : List (List Char)) : List Char := (L.map (fun l => '\n' :: l)).flatten

lemma flattenR_cons (l : List Char) (L : List (List Char)) :
    flattenR (l :: L) = '\n' :: (l ++ flattenR L) := by
  unfold flattenR
  simp

lemma flattenR_append (A B : List (List Char)) :
    flattenR (A ++ B) = flattenR A ++ flattenR B := by
  unfold flattenR
  rw [List.map_append, List.flatten_append]

lemma splitNL_cons (c : Char) (cs : List Char) :
    splitNL (c :: cs) = match splitNL cs with
      | [] => [[c]]
      | l :: ls => if c = '\n' then [] :: l :: ls else (c :: l) :: ls := rfl

lemma splitNL_ne_nil (s : List Char) : splitNL s ≠ [] := by
  cases s with
  | nil => simp [splitNL]
  | cons c cs =>
    rw [splitNL_cons]
    cases h : splitNL cs with
    | nil => simp
    | cons l ls =>
      by_cases hc : c = '\n' <;> simp [hc]

lemma flattenR_splitNL (s : List Char) : flattenR (splitNL s) = '\n' :: s := by
  induction s with
  | nil => rfl
  | cons c cs ih =>
    rw [splitNL_cons]
    cases h : splitNL cs with
    | nil => exact absurd h (splitNL_ne_nil cs)
    | cons l ls =>
      rw [h] at ih
      have ih' : l ++ flattenR ls = cs := by
        rw [flattenR_cons] at ih
        exact List.cons_injective ih
      by_cases hc : c = '\n'
      · subst hc
        simp [flattenR_cons, ih']
      · simp [hc, flattenR_cons, ih']

lemma splitNL_no_newline (s : List Char) : ∀ l ∈ splitNL s, '\n' ∉ l := by
  induction s with
  | nil =>
    intro l hl
    simp [splitNL] at hl
    simp [hl]
  | cons c cs ih =>
    intro l hl
    cases h : splitNL cs with
    | nil => exact absurd h (splitNL_ne_nil cs)
    | cons l0 ls =>
      have heq : splitNL (c :: cs) = if c = '\n' then [] :: l0 :: ls else (c :: l0) :: ls := by
        rw [splitNL_cons, h]
      rw [heq] at hl
      by_cases hc : c = '\n'
      · rw [if_pos hc] at hl
        rcases List.mem_cons.1 hl with h1 | h1
        · simp [h1]
        · exact ih l (by rw [h]; exact h1)
      · rw [if_neg hc] at hl
        rcases List.mem_cons.1 hl with h1 | h1
        · subst h1
          intro hmem
          rcases List.mem_cons.1 hmem with h2 | h2
          · exact hc h2.symm
          · exact ih l0 (by rw [h]; exact List.mem_cons_self _ _) h2
        · exact ih l (by rw [h]; exact List.mem_cons_of_mem _ h1)

lemma splitNL_append (a b : List Char) :
    splitNL (a ++ '\n' :: b) = splitNL a ++ splitNL b := by
  induction a with
  | nil =>
    rw [List.nil_append, splitNL_cons]
    cases h : splitNL b with
    | nil => exact absurd h (splitNL_ne_nil b)
    | cons l ls => simp [splitNL]
  | cons c cs ih =>
    rw [List.cons_append, splitNL_cons, ih, splitNL_cons]
    cases h : splitNL cs with
    | nil => exact absurd h (splitNL_ne_nil cs)
    | cons l ls =>
      by_cases hc : c = '\n' <;> simp [hc]

lemma splitNL_single {a : List Char} (h : '\n' ∉ a) : splitNL a = [a] := by
  induction a with
  | nil => rfl
  | cons c cs ih =>
    have h1 : splitNL cs = [cs] := ih fun hm => h (List.mem_cons_of_mem _ hm)
    have heq : splitNL (c :: cs) = if c = '\n' then [] :: cs :: [] else [c :: cs] := by
      rw [splitNL_cons, h1]
    rw [heq, if_neg (fun hc => h (by simp [hc]))]

lemma stripCR_eq_self {l : List Char} (h : '\r' ∉ l) : stripCR l = l := by
  unfold stripCR
  rw [if_neg]
  intro hc
  exact h (List.mem_of_getLast?_eq_some hc)

lemma rlines_append (a b : List Char) :
    rlines (a ++ '\n' :: b) = (splitNL a).map stripCR ++ rlines b := by
  unfold rlines
  rw [splitNL_append]
  cases hB : splitNL b with
  | nil => exact absurd hB (splitNL_ne_nil b)
  | cons l ls =>
    obtain ⟨x, hx⟩ : ∃ x, (l :: ls).getLast? = some x := by
      cases hg : (l :: ls).getLast? with
      | none => exact absurd (List.getLast?_eq_none_iff.1 hg) (by simp)
      | some x => exact ⟨x, rfl⟩
    rw [List.getLast?_append, hx, Option.or_some, List.dropLast_append_cons]
    by_cases hxnil : x = []
    · subst hxnil
      rw [if_pos rfl, if_pos rfl, List.map_append]
    · rw [if_neg (by simpa using hxnil), if_neg (by simpa using hxnil), List.map_append]
      simp

lemma rlines_no_newline (s : List Char) : ∀ l ∈ rlines s, '\n' ∉ l := by
  intro l hl
  unfold rlines at hl
  have hsub : ∀ x ∈ (splitNL s).dropLast.map stripCR, '\n' ∉ x := by
    intro x hx
    rcases List.mem_map.1 hx with ⟨y, hy, rfl⟩
    have hyn : '\n' ∉ y :=
      splitNL_no_newline s y (List.dropLast_subset _ hy)
    unfold stripCR
    by_cases hc : y.getLast? = some '\r'
    · rw [if_pos hc]
      intro hm
      exact hyn (List.dropLast_subset _ hm)
    · rw [if_neg hc]; exact hyn
  by_cases hg : (splitNL s).getLast? = some []
  · rw [if_pos hg] at hl
    exact hsub l hl
  · rw [if_neg hg] at hl
    rcases List.mem_append.1 hl with h1 | h1
    · exact hsub l h1
    · cases hx : (splitNL s).getLast? with
      | none => rw [hx] at h1; cases h1
      | some x =>
        rw [hx] at h1
        have : l = x := by simpa using h1
        subst this
        exact splitNL_no_newline s l (List.mem_of_getLast?_eq_some hx)

lemma splitNL_chars {s : List Char} : ∀ l ∈ splitNL s, ∀ c ∈ l, c ∈ s := by
  induction s with
  | nil =>
    intro l hl
    simp [splitNL] at hl
    simp [hl]
  | cons c cs ih =>
    intro l hl
    cases h : splitNL cs with
    | nil => exact absurd h (splitNL_ne_nil cs)
    | cons l0 ls =>
      have heq : splitNL (c :: cs) = if c = '\n' then [] :: l0 :: ls else (c :: l0) :: ls := by
        rw [splitNL_cons, h]
      rw [heq] at hl
      by_cases hc : c = '\n'
      · rw [if_pos hc] at hl
        rcases List.mem_cons.1 hl with h1 | h1
        · simp [h1]
        · intro x hx
          exact List.mem_cons_of_mem _ (ih l (by rw [h]; exact h1) x hx)
      · rw [if_neg hc] at hl
        rcases List.mem_cons.1 hl with h1 | h1
        · subst h1
          intro x hx
          rcases List.mem_cons.1 hx with h2 | h2
          · simp [h2]
          · exact List.mem_cons_of_mem _ (ih l0 (by rw [h]; exact List.mem_cons_self _ _) x h2)
        · intro x hx
          exact List.mem_cons_of_mem _ (ih l (by rw [h]; exact List.mem_cons_of_mem _ h1) x hx)

lemma map_stripCR_of_no_cr {P : List (List Char)} (h : ∀ l ∈ P, '\r' ∉ l) :
    P.map stripCR = P := by
  have h2 : ∀ l ∈ P, stripCR l = l := fun l hl => stripCR_eq_self (h l hl)
  rw [List.map_congr_left h2]
  simp

lemma trim_flattenR_rlines {s : List Char} (h : '\r' ∉ s) :
    trim (flattenR (rlines s)) = trim s := by
  have hchars : ∀ l ∈ splitNL s, '\r' ∉ l := by
    intro l hl hc
    exact h (splitNL_chars l hl '\r' hc)
  unfold rlines
  cases hg : (splitNL s).getLast? with
  | none => exact absurd (List.getLast?_eq_none_iff.1 hg) (splitNL_ne_nil s)
  | some x =>
    have hparts : (splitNL s).dropLast ++ [x] = splitNL s :=
      List.dropLast_append_getLast? x (by rw [hg]; rfl)
    have hdropchars : ∀ l ∈ (splitNL s).dropLast, '\r' ∉ l :=
      fun l hl => hchars l (List.dropLast_subset _ hl)
    by_cases hx : x = []
    · subst hx
      rw [if_pos rfl, map_stripCR_of_no_cr hdropchars]
      have hflat : flattenR ((splitNL s).dropLast) ++ ['\n'] = '\n' :: s := by
        have := flattenR_splitNL s
        rw [← hparts, flattenR_append] at this
        simpa [flattenR_cons] using this
      cases hQ : (splitNL s).dropLast with
      | nil =>
        rw [hQ] at hflat
        have hs : s = [] := by simpa [flattenR] using hflat.symm
        rw [hs]
        rfl
      | cons q Q' =>
        rw [hQ] at hflat
        rw [flattenR_cons] at hflat ⊢
        have hs : s = (q ++ flattenR Q') ++ ['\n'] := by
          have := List.cons_injective hflat
          rw [← this]
          simp [flattenR_cons]
        rw [hs, trim_append_ws_right (by intro c hc; simp at hc; simp [hc, rustIsWhitespace]),
          trim_cons_ws (by simp [rustIsWhitespace])]
    · rw [if_neg (by simpa using hx)]
      have hrl : List.map stripCR (splitNL s).dropLast ++ (some x).toList = splitNL s := by
        rw [map_stripCR_of_no_cr hdropchars]
        exact hparts
      rw [hrl, flattenR_splitNL, trim_cons_ws (by simp [rustIsWhitespace])]

lemma splitOnceNL_append {a : List Char} (b : List Char) (h : '\n' ∉ a) :
    splitOnceNL (a ++ '\n' :: b) = some (a, b) := by
  induction a with
  | nil => simp [splitOnceNL]
  | cons c cs ih =>
    rw [List.cons_append]
    unfold splitOnceNL
    rw [if_neg (fun hc => h (by simp [hc])), ih fun hm => h (List.mem_cons_of_mem _ hm)]

lemma rustLen_append (a b : List Char) : rustLen (a ++ b) = rustLen a + rustLen b := by
  unfold rustLen
  rw [List.map_append, List.sum_append]

lemma rustLen_cons (c : Char) (l : List Char) : rustLen (c :: l) = c.utf8Size + rustLen l := by
  unfold rustLen
  simp

/-! ### The scan loop: staying in `Matter`, and scanning after the matter block -/

lemma foldlM_matter_no_close {α : Type} (e : List Char → α) (d ed : List Char) :
    ∀ (lines : List (List Char)) (st : ScanState α), st.part = Part.Matter →
      (∀ l ∈ lines, trimEnd l ≠ d) →
      lines.foldlM (scanLine e d ed) st =
        some ⟨Part.Matter, st.acc ++ flattenR lines, st.data, st.matter, st.excerpt⟩ := by
  intro lines
  induction lines with
  | nil =>
    intro st h1 h2
    obtain ⟨p, acc, dat, mat, exc⟩ := st
    simp only at h1
    subst h1
    simp [flattenR]
  | cons l ls ih =>
    intro st h1 h2
    obtain ⟨p, acc, dat, mat, exc⟩ := st
    simp only at h1
    subst h1
    rw [List.foldlM_cons]
    have hstep : scanLine e d ed ⟨Part.Matter, acc, dat, mat, exc⟩ l =
        some ⟨Part.Matter, acc ++ '\n' :: l, dat, mat, exc⟩ := by
      unfold scanLine
      rw [if_neg (h2 l (List.mem_cons_self _ _))]
    rw [hstep]
    show (l :: ls).tail.foldlM (scanLine e d ed) ⟨Part.Matter, acc ++ '\n' :: l, dat, mat, exc⟩ =
      some ⟨Part.Matter, acc ++ flattenR (l :: ls), dat, mat, exc⟩
    rw [List.tail_cons, ih _ rfl fun x hx => h2 x (List.mem_cons_of_mem _ hx)]
    simp [flattenR_cons]

lemma trim_fence_decomp {x d t : List Char} {c el : Char} (hdh : d.head? = some c)
    (hc : rustIsWhitespace c = false) (hel : d.getLast? = some el)
    (hwel : rustIsWhitespace el = false) (ht : allWs t) :
    ∃ y, trim (x ++ '\n' :: (d ++ t)) = y ++ d := by
  rcases List.getLast?_eq_some_iff.1 hel with ⟨y0, hy0⟩
  have h1 : trimEnd (x ++ '\n' :: (d ++ t)) = x ++ '\n' :: d := by
    have hshape : x ++ '\n' :: (d ++ t) = (x ++ '\n' :: d) ++ t := by simp
    rw [hshape, trimEnd_append_ws ht, trimEnd_eq_self]
    intro c2 hc2
    have : (x ++ '\n' :: d).getLast? = some el := by
      rw [hy0, show x ++ '\n' :: (y0 ++ [el]) = (x ++ '\n' :: y0) ++ [el] from by simp,
        List.getLast?_concat]
    rw [this] at hc2
    cases hc2
    exact hwel
  rcases List.head?_eq_some_iff.1 hdh with ⟨d2, hd2⟩
  unfold trim
  rw [h1]
  unfold trimStart
  rw [List.dropWhile_append]
  by_cases hemp : (x.dropWhile rustIsWhitespace).isEmpty
  · rw [if_pos hemp, List.dropWhile_cons_of_pos (by simp [rustIsWhitespace]), hd2,
      List.dropWhile_cons_of_neg (by simp [hc])]
    exact ⟨[], by simp⟩
  · rw [if_neg hemp]
    exact ⟨x.dropWhile rustIsWhitespace ++ ['\n'], by simp⟩

lemma foldlM_after_matter {α : Type} (e : List Char → α) (d ed : List Char)
    (hed : ed = [] ∨ ∃ c cs, ed = c :: cs ∧ rustIsWhitespace c = false) :
    ∀ (lines : List (List Char)) (st : ScanState α),
      (st.part = Part.MaybeExcerpt ∨ st.part = Part.Content) →
      (∀ l ∈ lines, '\n' ∉ l) →
      ∃ st', lines.foldlM (scanLine e d ed) st = some st' ∧
        st'.acc = st.acc ++ flattenR lines ∧ st'.data = st.data ∧ st'.matter = st.matter ∧
        (st'.part = Part.MaybeExcerpt ∨ st'.part = Part.Content) := by
  intro lines
  induction lines with
  | nil =>
    intro st h1 h2
    exact ⟨st, by simp [flattenR], by simp [flattenR], rfl, rfl, h1⟩
  | cons l ls ih =>
    intro st h1 h2
    obtain ⟨p, acc, dat, mat, exc⟩ := st
    rw [List.foldlM_cons]
    have hnext : ∃ stm : ScanState α,
        scanLine e d ed ⟨p, acc, dat, mat, exc⟩ l = some stm ∧
        stm.acc = acc ++ '\n' :: l ∧ stm.data = dat ∧ stm.matter = mat ∧
        (stm.part = Part.MaybeExcerpt ∨ stm.part = Part.Content) := by
      rcases h1 with hp | hp <;> simp only at hp <;> subst hp
      · unfold scanLine
        by_cases hguard : trimEnd l = ed
        · have hsome : ∃ y, stripSuffix (trim (acc ++ '\n' :: l)) ed = some y := by
            rcases hed with hednil | ⟨c, cs, hcons, hcws⟩
            · subst hednil
              exact ⟨_, stripSuffix_nil _⟩
            · rcases trimEnd_decomp hguard with ⟨t, hlt, hws⟩
              obtain ⟨el, hel⟩ : ∃ el, ed.getLast? = some el := by
                cases hgl : ed.getLast? with
                | none =>
                  exact absurd (List.getLast?_eq_none_iff.1 hgl) (by rw [hcons]; simp)
                | some el => exact ⟨el, rfl⟩
              rcases trim_fence_decomp (x := acc) (t := t)
                (by rw [hcons]; rfl) hcws hel
                (trimEnd_getLast_not_ws hguard el hel) hws with ⟨y, hy⟩
              rw [hlt, hy]
              exact ⟨y, stripSuffix_append y ed⟩
          rcases hsome with ⟨y, hy⟩
          rw [if_pos hguard, hy]
          exact ⟨_, rfl, rfl, rfl, rfl, Or.inr rfl⟩
        · rw [if_neg hguard]
          exact ⟨_, rfl, rfl, rfl, rfl, Or.inl rfl⟩
      · unfold scanLine
        exact ⟨_, rfl, rfl, rfl, rfl, Or.inr rfl⟩
    rcases hnext with ⟨stm, hstep, hacc, hdat, hmat, hpart⟩
    rw [hstep]
    have hbind : (do
        let init ← some stm
        List.foldlM (scanLine e d ed) init ls) = List.foldlM (scanLine e d ed) stm ls := rfl
    rw [hbind]
    rcases ih stm hpart (fun x hx => h2 x (List.mem_cons_of_mem _ hx)) with
      ⟨st', hfold, hacc', hdat', hmat', hpart'⟩
    refine ⟨st', hfold, ?_, by rw [hdat', hdat], by rw [hmat', hmat], hpart'⟩
    rw [hacc', hacc, flattenR_cons]
    simp

/-! ### The comment-stripping scan -/

lemma commentMatch_eq_nil {cs : List Char} (hd : cs.dropWhile rustIsWhitespace = []) :
    commentMatch cs = none := by
  unfold commentMatch
  rw [hd]

lemma commentMatch_eq_one {cs : List Char} {a : Char}
    (hd : cs.dropWhile rustIsWhitespace = [a]) : commentMatch cs = none := by
  unfold commentMatch
  rw [hd]

lemma commentMatch_eq_cons {cs : List Char} {a b : Char} {rest : List Char}
    (hd : cs.dropWhile rustIsWhitespace = a :: b :: rest) :
    commentMatch cs = if a = '#' ∧ b ≠ '\n'
      then some ((b :: rest).dropWhile (fun x => !(x == '\n'))) else none := by
  unfold commentMatch
  rw [hd]

lemma commentMatch_cases (cs : List Char) :
    commentMatch cs = none ∨
    ∃ b rest, cs.dropWhile rustIsWhitespace = '#' :: b :: rest ∧ b ≠ '\n' ∧
      commentMatch cs = some ((b :: rest).dropWhile (fun x => !(x == '\n'))) := by
  cases hd : cs.dropWhile rustIsWhitespace with
  | nil => exact Or.inl (commentMatch_eq_nil hd)
  | cons a tl =>
    cases tl with
    | nil => exact Or.inl (commentMatch_eq_one hd)
    | cons b rest =>
      by_cases hab : a = '#' ∧ b ≠ '\n'
      · refine Or.inr ⟨b, rest, by rw [hab.1], hab.2, ?_⟩
        rw [commentMatch_eq_cons hd, if_pos hab]
      · exact Or.inl (by rw [commentMatch_eq_cons hd, if_neg hab])

lemma commentMatch_length {cs r : List Char} (h : commentMatch cs = some r) :
    r.length < cs.length := by
  rcases commentMatch_cases cs with hn | ⟨b, rest, hd, hb, hs⟩
  · rw [hn] at h; cases h
  · rw [hs] at h
    cases h
    have h1 : ((b :: rest).dropWhile (fun x => !(x == '\n'))).length ≤ rest.length + 1 :=
      (List.dropWhile_sublist _).length_le
    have h2 : (cs.dropWhile rustIsWhitespace).length ≤ cs.length :=
      (List.dropWhile_sublist _).length_le
    rw [hd] at h2
    simp at h2
    omega

lemma commentMatch_ws_run {w z : List Char} (hw : allWs w) :
    commentMatch (w ++ z) = commentMatch z := by
  unfold commentMatch
  rw [dropWhile_ws_append hw]

lemma commentMatch_cons_ws {c : Char} {z : List Char} (hc : rustIsWhitespace c = true) :
    commentMatch (c :: z) = commentMatch z := by
  have hw : allWs [c] := by intro x hx; simp at hx; rw [hx]; exact hc
  simpa using commentMatch_ws_run (w := [c]) (z := z) hw

lemma commentMatch_of_head {z : List Char} {a : Char} {tl : List Char}
    (h : z.dropWhile rustIsWhitespace = a :: tl) (ha : a ≠ '#') :
    commentMatch z = none := by
  cases tl with
  | nil => exact commentMatch_eq_one h
  | cons b rest => rw [commentMatch_eq_cons h, if_neg (fun hc => ha hc.1)]

lemma stripCommentsAux_nil (f : Nat) (b : Bool) : stripCommentsAux f b [] = [] := by
  cases f <;> rfl

lemma stripCommentsAux_cons (f : Nat) (b : Bool) (c : Char) (cs : List Char) :
    stripCommentsAux (f + 1) b (c :: cs) =
      if b then
        match commentMatch (c :: cs) with
        | some rest => stripCommentsAux f false rest
        | none => c :: stripCommentsAux f (c == '\n') cs
      else c :: stripCommentsAux f (c == '\n') cs := rfl

lemma stripCommentsAux_fuel : ∀ (f1 f2 : Nat) (b : Bool) (cs : List Char),
    cs.length < f1 → cs.length < f2 →
    stripCommentsAux f1 b cs = stripCommentsAux f2 b cs := by
  intro f1
  induction f1 with
  | zero =>
    intro f2 b cs h1 h2
    omega
  | succ f1' ih =>
    intro f2 b cs h1 h2
    cases f2 with
    | zero => omega
    | succ f2' =>
      cases cs with
      | nil => rfl
      | cons c cs' =>
        simp only [List.length_cons] at h1 h2
        rw [stripCommentsAux_cons, stripCommentsAux_cons]
        by_cases hb : b = true
        · rw [if_pos hb, if_pos hb]
          cases hcm : commentMatch (c :: cs') with
          | some rest =>
            have hlen := commentMatch_length hcm
            simp only [List.length_cons] at hlen
            simp only [hcm]
            exact ih f2' false rest (by omega) (by omega)
          | none =>
            simp only [hcm]
            rw [ih f2' (c == '\n') cs' (by omega) (by omega)]
        · rw [if_neg hb, if_neg hb, ih f2' (c == '\n') cs' (by omega) (by omega)]

lemma stripCommentsAux_copy {l : List Char} (rest : List Char) (hl : '\n' ∉ l) :
    ∀ f, (l ++ rest).length < f →
    stripCommentsAux f false (l ++ rest) = l ++ stripCommentsAux f false rest := by
  induction l with
  | nil => intro f h; rfl
  | cons c l' ih =>
    intro f h
    cases f with
    | zero => simp at h
    | succ f' =>
      rw [List.cons_append, stripCommentsAux_cons, if_neg (by simp)]
      have hcn : (c == '\n') = false := by
        simp only [beq_eq_false_iff_ne]
        intro hc
        exact hl (by simp [hc])
      simp only [List.length_append, List.length_cons] at h
      rw [hcn, ih (fun hm => hl (List.mem_cons_of_mem _ hm)) f' (by simp; omega),
        stripCommentsAux_fuel f' (f' + 1) false rest (by omega) (by omega)]
      simp

lemma stripCommentsAux_no_newline {z : List Char} (hz : '\n' ∉ z)
    (hcm : commentMatch z = none) :
    ∀ f b, z.length < f → stripCommentsAux f b z = z := by
  cases z with
  | nil => intro f b h; exact stripCommentsAux_nil f b
  | cons c z' =>
    intro f b h
    cases f with
    | zero => simp at h
    | succ f' =>
      rw [stripCommentsAux_cons]
      have hcn : (c == '\n') = false := by
        simp only [beq_eq_false_iff_ne]
        intro hc
        exact hz (by simp [hc])
      simp only [List.length_cons] at h
      have hcopy : stripCommentsAux f' (c == '\n') z' = z' := by
        rw [hcn]
        have h2 := stripCommentsAux_copy (l := z') [] (fun hm => hz (List.mem_cons_of_mem _ hm))
          f' (by simp; omega)
        simpa [stripCommentsAux_nil] using h2
      by_cases hb : b = true
      · rw [if_pos hb]
        simp only [hcm]
        rw [hcopy]
      · rw [if_neg hb, hcopy]

lemma commentMatch_fence {x d t r : List Char} {c : Char}
    (hdh : d.head? = some c) (hcw : rustIsWhitespace c = false) (hch : c ≠ '#')
    (h : commentMatch (x ++ '\n' :: (d ++ t)) = some r) :
    ∃ x', r = x' ++ '\n' :: (d ++ t) := by
  rcases List.head?_eq_some_iff.1 hdh with ⟨d3, rfl⟩
  rcases commentMatch_cases (x ++ '\n' :: (c :: d3 ++ t)) with hn | ⟨b, rest, hd, hb, hs⟩
  · rw [hn] at h; cases h
  · rw [hs] at h
    cases h
    rw [List.dropWhile_append] at hd
    by_cases hemp : (x.dropWhile rustIsWhitespace).isEmpty
    · rw [if_pos hemp, List.dropWhile_cons_of_pos (by simp [rustIsWhitespace]),
        List.cons_append, List.dropWhile_cons_of_neg (by simp [hcw])] at hd
      injection hd with h1 h2
      exact absurd h1 hch
    · rw [if_neg hemp] at hd
      cases hxd : x.dropWhile rustIsWhitespace with
      | nil => rw [hxd] at hemp; simp at hemp
      | cons a2 tl2 =>
        rw [hxd, List.cons_append] at hd
        injection hd with h1 h2
        rw [← h2, List.dropWhile_append]
        by_cases hemp2 : (tl2.dropWhile (fun x => !(x == '\n'))).isEmpty
        · rw [if_pos hemp2, List.dropWhile_cons_of_neg (by simp)]
          exact ⟨[], rfl⟩
        · rw [if_neg hemp2]
          exact ⟨tl2.dropWhile (fun x => !(x == '\n')), rfl⟩

lemma stripCommentsAux_fence {d t : List Char} {c : Char}
    (hdh : d.head? = some c) (hcw : rustIsWhitespace c = false) (hch : c ≠ '#')
    (ht : allWs t) (hdn : '\n' ∉ d) (htn : '\n' ∉ t) :
    ∀ (f : Nat) (b : Bool) (x : List Char), (x ++ '\n' :: (d ++ t)).length < f →
    ∃ y, stripCommentsAux f b (x ++ '\n' :: (d ++ t)) = y ++ '\n' :: (d ++ t) := by
  have hdt : '\n' ∉ d ++ t := by
    intro hm
    rcases List.mem_append.1 hm with hm | hm
    · exact hdn hm
    · exact htn hm
  have hcmdt : commentMatch (d ++ t) = none := by
    rcases List.head?_eq_some_iff.1 hdh with ⟨d3, rfl⟩
    have hdw : (c :: d3 ++ t).dropWhile rustIsWhitespace = c :: (d3 ++ t) := by
      rw [List.cons_append, List.dropWhile_cons_of_neg (by simp [hcw])]
    exact commentMatch_of_head hdw hch
  intro f
  induction f with
  | zero =>
    intro b x h
    omega
  | succ f' ih =>
    intro b x h
    cases x with
    | nil =>
      rw [List.nil_append, stripCommentsAux_cons]
      have hcm : commentMatch ('\n' :: (d ++ t)) = none := by
        rw [commentMatch_cons_ws (by simp [rustIsWhitespace])]
        exact hcmdt
      simp only [List.nil_append, List.length_cons] at h
      have hrest : stripCommentsAux f' (('\n' : Char) == '\n') (d ++ t) = d ++ t := by
        rw [show (('\n' : Char) == '\n') = true from by simp]
        exact stripCommentsAux_no_newline hdt hcmdt f' true (by omega)
      by_cases hb : b = true
      · rw [if_pos hb]
        simp only [hcm]
        rw [hrest]
        exact ⟨[], rfl⟩
      · rw [if_neg hb, hrest]
        exact ⟨[], rfl⟩
    | cons c2 x2 =>
      rw [List.cons_append, stripCommentsAux_cons]
      simp only [List.length_cons, List.length_append] at h
      by_cases hb : b = true
      · rw [if_pos hb]
        cases hcm : commentMatch (c2 :: (x2 ++ '\n' :: (d ++ t))) with
        | some r =>
          simp only [hcm]
          have hcm' : commentMatch ((c2 :: x2) ++ '\n' :: (d ++ t)) = some r := by
            rw [List.cons_append]
            exact hcm
          rcases commentMatch_fence hdh hcw hch hcm' with ⟨x', rfl⟩
          have hlen := commentMatch_length hcm
          simp only [List.length_cons, List.length_append] at hlen
          exact ih false x' (by simp; omega)
        | none =>
          simp only [hcm]
          rcases ih (c2 == '\n') x2 (by simp; omega) with ⟨y, hy⟩
          refine ⟨c2 :: y, ?_⟩
          rw [hy, List.cons_append]
      · rw [if_neg hb]
        rcases ih (c2 == '\n') x2 (by simp; omega) with ⟨y, hy⟩
        refine ⟨c2 :: y, ?_⟩
        rw [hy, List.cons_append]

lemma matter_strip_some {acc line d : List Char} {c : Char}
    (hg : trimEnd line = d) (hdh : d.head? = some c) (hcw : rustIsWhitespace c = false)
    (hch : c ≠ '#') (hln : '\n' ∉ line) :
    ∃ z, stripSuffix (trim (stripComments (acc ++ '\n' :: line))) d = some z := by
  rcases trimEnd_decomp hg with ⟨t, hline, ht⟩
  have hdn : '\n' ∉ d := fun hm => hln (by rw [hline]; exact List.mem_append.2 (Or.inl hm))
  have htn : '\n' ∉ t := fun hm => hln (by rw [hline]; exact List.mem_append.2 (Or.inr hm))
  obtain ⟨el, hel⟩ : ∃ el, d.getLast? = some el := by
    cases hgl : d.getLast? with
    | none =>
      have hnil : d = [] := List.getLast?_eq_none_iff.1 hgl
      rw [hnil] at hdh
      cases hdh
    | some el => exact ⟨el, rfl⟩
  have hwel := trimEnd_getLast_not_ws hg el hel
  rw [hline]
  unfold stripComments
  rcases stripCommentsAux_fence hdh hcw hch ht hdn htn
    ((acc ++ '\n' :: (d ++ t)).length + 1) true acc (by omega) with ⟨y, hy⟩
  rw [hy]
  rcases trim_fence_decomp (x := y) hdh hcw hel hwel ht with ⟨y2, hy2⟩
  rw [hy2]
  exact ⟨y2, stripSuffix_append y2 d⟩

lemma foldlM_total {α : Type} (e : List Char → α) {d : List Char} {c : Char}
    (ed : List Char)
    (hdh : d.head? = some c) (hcw : rustIsWhitespace c = false) (hch : c ≠ '#')
    (hed : ed = [] ∨ ∃ c2 cs2, ed = c2 :: cs2 ∧ rustIsWhitespace c2 = false) :
    ∀ (lines : List (List Char)) (st : ScanState α), (∀ l ∈ lines, '\n' ∉ l) →
    ∃ st', lines.foldlM (scanLine e d ed) st = some st' := by
  intro lines
  induction lines with
  | nil => intro st h; exact ⟨st, rfl⟩
  | cons l ls ih =>
    intro st h
    obtain ⟨p, acc, dat, mat, exc⟩ := st
    cases p with
    | Matter =>
      rw [List.foldlM_cons]
      by_cases hguard : trimEnd l = d
      · rcases @matter_strip_some acc l d _ hguard hdh hcw hch
          (h l (List.mem_cons_self _ _)) with ⟨z, hz⟩
        have hstep : ∃ st1 : ScanState α,
            scanLine e d ed ⟨Part.Matter, acc, dat, mat, exc⟩ l = some st1 ∧
            (st1.part = Part.MaybeExcerpt ∨ st1.part = Part.Content) := by
          unfold scanLine
          rw [if_pos hguard]
          simp only [hz]
          by_cases hm : trimMatchesNL z = []
          · rw [if_pos hm]
            exact ⟨_, rfl, Or.inl rfl⟩
          · rw [if_neg hm]
            exact ⟨_, rfl, Or.inl rfl⟩
        rcases hstep with ⟨st1, hs1, hp1⟩
        rw [hs1]
        have hbind : (do
            let init ← some st1
            List.foldlM (scanLine e d ed) init ls) =
            List.foldlM (scanLine e d ed) st1 ls := rfl
        rw [hbind]
        rcases foldlM_after_matter e d ed hed ls st1 hp1
          (fun a ha => h a (List.mem_cons_of_mem _ ha)) with ⟨st', hf, _⟩
        exact ⟨st', hf⟩
      · have hstep : scanLine e d ed ⟨Part.Matter, acc, dat, mat, exc⟩ l =
            some ⟨Part.Matter, acc ++ '\n' :: l, dat, mat, exc⟩ := by
          unfold scanLine
          rw [if_neg hguard]
        rw [hstep]
        have hbind : (do
            let init ← some (⟨Part.Matter, acc ++ '\n' :: l, dat, mat, exc⟩ : ScanState α)
            List.foldlM (scanLine e d ed) init ls) =
            List.foldlM (scanLine e d ed) ⟨Part.Matter, acc ++ '\n' :: l, dat, mat, exc⟩ ls := rfl
        rw [hbind]
        exact ih _ fun a ha => h a (List.mem_cons_of_mem _ ha)
    | MaybeExcerpt =>
      rcases foldlM_after_matter e d ed hed (l :: ls) ⟨Part.MaybeExcerpt, acc, dat, mat, exc⟩
        (Or.inl rfl) h with ⟨st', hf, _⟩
      exact ⟨st', hf⟩
    | Content =>
      rcases foldlM_after_matter e d ed hed (l :: ls) ⟨Part.Content, acc, dat, mat, exc⟩
        (Or.inr rfl) h with ⟨st', hf, _⟩
      exact ⟨st', hf⟩

/-! ### Unfolding `parse` by the shape of the input -/

lemma parse_eq_degenerate {α : Type} (e : List Char → α) (d : List Char)
    (ed : Option (List Char)) {input : List Char}
    (h : input = [] ∨ rustLen input ≤ rustLen d) :
    parse e d ed input = some ⟨none, [], none, input, []⟩ := by
  unfold parse
  rw [if_pos h]

lemma parse_eq_matter {α : Type} (e : List Char → α) (d : List Char)
    (ed : Option (List Char)) {input first rest : List Char}
    (hnd : ¬(input = [] ∨ rustLen input ≤ rustLen d))
    (hsplit : splitOnceNL input = some (first, rest))
    (hfence : trimEnd first = d) :
    parse e d ed input =
      finalize input ((rlines rest).foldlM (scanLine e d (ed.getD d))
        ⟨Part.Matter, [], none, [], none⟩) := by
  unfold parse
  rw [if_neg hnd]
  simp only [hsplit, if_pos hfence]

lemma parse_eq_maybe {α : Type} (e : List Char → α) (d : List Char)
    (ed : Option (List Char)) {input : List Char}
    (hnd : ¬(input = [] ∨ rustLen input ≤ rustLen d))
    (hstart : (match splitOnceNL input with
      | some (firstLine, rest) =>
        if trimEnd firstLine = d then (Part.Matter, rlines rest)
        else (Part.MaybeExcerpt, rlines input)
      | none => (Part.MaybeExcerpt, rlines input)) = (Part.MaybeExcerpt, rlines input)) :
    parse e d ed input =
      finalize input ((rlines input).foldlM (scanLine e d (ed.getD d))
        ⟨Part.MaybeExcerpt, [], none, [], none⟩) := by
  unfold parse
  rw [if_neg hnd]
  simp only [hstart]

lemma parse_cases {α : Type} (e : List Char → α) (d : List Char) (ed : Option (List Char))
    (input : List Char) :
    parse e d ed input = some ⟨none, [], none, input, []⟩ ∨
    ∃ (p0 : Part) (L : List (List Char)),
      (p0 = Part.Matter ∨ p0 = Part.MaybeExcerpt) ∧ (∀ l ∈ L, '\n' ∉ l) ∧
      parse e d ed input =
        finalize input (L.foldlM (scanLine e d (ed.getD d)) ⟨p0, [], none, [], none⟩) := by
  by_cases hdeg : input = [] ∨ rustLen input ≤ rustLen d
  · exact Or.inl (parse_eq_degenerate e d ed hdeg)
  · cases hsplit : splitOnceNL input with
    | none =>
      refine Or.inr ⟨Part.MaybeExcerpt, rlines input, Or.inr rfl, rlines_no_newline input, ?_⟩
      unfold parse
      rw [if_neg hdeg]
      simp only [hsplit]
    | some pr =>
      obtain ⟨first, rest⟩ := pr
      by_cases hfence : trimEnd first = d
      · refine Or.inr ⟨Part.Matter, rlines rest, Or.inl rfl, rlines_no_newline rest, ?_⟩
        unfold parse
        rw [if_neg hdeg]
        simp only [hsplit, if_pos hfence]
      · refine Or.inr ⟨Part.MaybeExcerpt, rlines input, Or.inr rfl, rlines_no_newline input, ?_⟩
        unfold parse
        rw [if_neg hdeg]
        simp only [hsplit, if_neg hfence]

lemma scanLine_dataInv {α : Type} (e : List Char → α) (d ed : List Char)
    (st st' : ScanState α) (line : List Char)
    (h : scanLine e d ed st line = some st')
    (h1 : st.data.isSome = true ↔ st.matter ≠ [])
    (h2 : ∀ v, st.data = some v → v = e st.matter) :
    (st'.data.isSome = true ↔ st'.matter ≠ []) ∧
      ∀ v, st'.data = some v → v = e st'.matter := by
  obtain ⟨p, acc, dat, mat, exc⟩ := st
  cases p with
  | Matter =>
    unfold scanLine at h
    by_cases hg : trimEnd line = d
    · rw [if_pos hg] at h
      cases hs : stripSuffix (trim (stripComments (acc ++ '\n' :: line))) d with
      | none =>
        simp only [hs] at h
        cases h
      | some s =>
        simp only [hs] at h
        by_cases hm : trimMatchesNL s = []
        · rw [if_pos hm] at h
          injection h with h
          subst h
          exact ⟨h1, h2⟩
        · rw [if_neg hm] at h
          injection h with h
          subst h
          refine ⟨by simpa using hm, ?_⟩
          intro v hv
          injection hv with hv
          subst hv
          rfl
    · rw [if_neg hg] at h
      injection h with h
      subst h
      exact ⟨h1, h2⟩
  | MaybeExcerpt =>
    unfold scanLine at h
    by_cases hg : trimEnd line = ed
    · rw [if_pos hg] at h
      cases hs : stripSuffix (trim (acc ++ '\n' :: line)) ed with
      | none =>
        simp only [hs] at h
        cases h
      | some s =>
        simp only [hs] at h
        injection h with h
        subst h
        exact ⟨h1, h2⟩
    · rw [if_neg hg] at h
      injection h with h
      subst h
      exact ⟨h1, h2⟩
  | Content =>
    unfold scanLine at h
    injection h with h
    subst h
    exact ⟨h1, h2⟩

lemma foldlM_dataInv {α : Type} (e : List Char → α) (d ed : List Char) :
    ∀ (lines : List (List Char)) (st st' : ScanState α),
      lines.foldlM (scanLine e d ed) st = some st' →
      (st.data.isSome = true ↔ st.matter ≠ []) →
      (∀ v, st.data = some v → v = e st.matter) →
      (st'.data.isSome = true ↔ st'.matter ≠ []) ∧
        ∀ v, st'.data = some v → v = e st'.matter := by
  intro lines
  induction lines with
  | nil =>
    intro st st' h h1 h2
    rw [List.foldlM_nil] at h
    injection h with h
    subst h
    exact ⟨h1, h2⟩
  | cons l ls ih =>
    intro st st' h h1 h2
    rw [List.foldlM_cons] at h
    cases hstep : scanLine e d ed st l with
    | none =>
      rw [hstep] at h
      cases h
    | some st1 =>
      rw [hstep] at h
      have hbind : (do
          let init ← some st1
          List.foldlM (scanLine e d ed) init ls) =
          List.foldlM (scanLine e d ed) st1 ls := rfl
      rw [hbind] at h
      rcases scanLine_dataInv e d ed st st1 l hstep h1 h2 with ⟨g1, g2⟩
      exact ih st1 st' h g1 g2

lemma finalize_some {α : Type} (input : List Char) (st : ScanState α) :
    finalize input (some st) =
      some ⟨st.data, trim st.acc, st.excerpt, input, st.matter⟩ := rfl

/-! ### Claims -/

/-- C5, counterexample: the claim says a degenerate input (non-empty, length at
most the fence length) yields `content` equal to the trimmed input; on input
`"ab"` with fence `"---"` the code returns `content` empty, while the trimmed
input is `"ab"`, which is non-empty. -/
theorem c5_counterexample :
    (parse (fun l => l) "---".data none "ab".data).map (fun p => p.content) =
        some [] ∧
    trim "ab".data ≠ [] := by
  constructor
  · decide
  · decide

/-- C5 (amended): for every engine, delimiter configuration and input that is
empty or whose UTF-8 byte length is at most the fence's byte length, `parse`
returns metadata absent, excerpt absent, raw matter empty and content empty
(not the trimmed input), with `orig` the verbatim input. -/
theorem c5_degenerate {α : Type} (e : List Char → α) (d : List Char)
    (ed : Option (List Char)) (input : List Char)
    (h : input = [] ∨ rustLen input ≤ rustLen d) :
    parse e d ed input = some ⟨none, [], none, input, []⟩ :=
  parse_eq_degenerate e d ed h

/-- C5, witness: the degenerate theorem evaluated at input `"ab"`. -/
theorem c5_witness :
    parse (fun l => l) "---".data none "ab".data =
      some ⟨none, [], none, "ab".data, []⟩ :=
  c5_degenerate (fun l => l) "---".data none "ab".data (by decide)

/-- C2, counterexample: the claim says `parse` never panics for any non-empty
delimiter configuration; with fence `"#a"` on input `"#a\n#a"` the whole
accumulated matter block is consumed as a regex comment match, the
`strip_suffix` call fails, and the `.expect` panics (embedded as `none`). -/
theorem c2_counterexample :
    parse (fun l => l) "#a".data none "#a\n#a".data = none := by
  decide

/-- C2 (amended): `parse` returns a result (never panics) for every input
provided the fence begins with a character that is neither whitespace nor
`'#'`, and the excerpt fence, when configured, is empty or begins with a
non-whitespace character. -/
theorem c2_totality {α : Type} (e : List Char → α) {d : List Char} {c : Char}
    (ed : Option (List Char)) (input : List Char)
    (hdh : d.head? = some c) (hcw : rustIsWhitespace c = false) (hch : c ≠ '#')
    (hed : ∀ edv, ed = some edv →
      edv = [] ∨ ∃ c2 cs2, edv = c2 :: cs2 ∧ rustIsWhitespace c2 = false) :
    (parse e d ed input).isSome = true := by
  have hedEff : ed.getD d = [] ∨
      ∃ c2 cs2, ed.getD d = c2 :: cs2 ∧ rustIsWhitespace c2 = false := by
    cases ed with
    | none =>
      rcases List.head?_eq_some_iff.1 hdh with ⟨d3, rfl⟩
      exact Or.inr ⟨c, d3, rfl, hcw⟩
    | some edv => exact hed edv rfl
  rcases parse_cases e d ed input with hdeg | ⟨p0, L, hp0, hLn, heq⟩
  · rw [hdeg]; rfl
  · rw [heq]
    have hfold : ∃ st', L.foldlM (scanLine e d (ed.getD d))
        ⟨p0, [], none, [], none⟩ = some st' := by
      rcases hp0 with rfl | rfl
      · exact foldlM_total e (ed.getD d) hdh hcw hch hedEff L _ hLn
      · rcases foldlM_after_matter e d (ed.getD d) hedEff L
          ⟨Part.MaybeExcerpt, [], none, [], none⟩ (Or.inl rfl) hLn with ⟨st', hf, _⟩
        exact ⟨st', hf⟩
    rcases hfold with ⟨st', hf⟩
    rw [hf, finalize_some]
    rfl

/-- C2, witness: the totality theorem evaluated at the default configuration
and a small input. -/
theorem c2_witness :
    (parse (fun l => l) "---".data none "---\ntitle: Home\n---\nOther stuff".data).isSome
      = true :=
  c2_totality (fun l => l) none "---\ntitle: Home\n---\nOther stuff".data
    rfl (by decide) (by decide) (fun edv h => nomatch h)

/-- C3: a scanned line closes the metadata block if and only if the entire
line with trailing whitespace trimmed equals the fence exactly, and closes the
excerpt if and only if the trimmed line equals the effective excerpt fence
exactly; a line with any extra characters never triggers a transition. -/
theorem c3_fence_exact {α : Type} (e : List Char → α) (d ed : List Char)
    (st st' : ScanState α) (line : List Char)
    (h : scanLine e d ed st line = some st') :
    (st.part = Part.Matter → (st'.part ≠ Part.Matter ↔ trimEnd line = d)) ∧
    (st.part = Part.MaybeExcerpt → (st'.part = Part.Content ↔ trimEnd line = ed)) := by
  obtain ⟨p, acc, dat, mat, exc⟩ := st
  cases p with
  | Matter =>
    refine ⟨fun _ => ?_, fun hp => Part.noConfusion hp⟩
    unfold scanLine at h
    by_cases hg : trimEnd line = d
    · rw [if_pos hg] at h
      cases hs : stripSuffix (trim (stripComments (acc ++ '\n' :: line))) d with
      | none =>
        simp only [hs] at h
        cases h
      | some s =>
        simp only [hs] at h
        by_cases hm : trimMatchesNL s = []
        · rw [if_pos hm] at h
          injection h with h
          subst h
          simp [hg]
        · rw [if_neg hm] at h
          injection h with h
          subst h
          simp [hg]
    · rw [if_neg hg] at h
      injection h with h
      subst h
      simp [hg]
  | MaybeExcerpt =>
    refine ⟨fun hp => Part.noConfusion hp, fun _ => ?_⟩
    unfold scanLine at h
    by_cases hg : trimEnd line = ed
    · rw [if_pos hg] at h
      cases hs : stripSuffix (trim (acc ++ '\n' :: line)) ed with
      | none =>
        simp only [hs] at h
        cases h
      | some s =>
        simp only [hs] at h
        injection h with h
        subst h
        simp [hg]
    · rw [if_neg hg] at h
      injection h with h
      subst h
      simp [hg]
  | Content =>
    exact ⟨fun hp => Part.noConfusion hp, fun hp => Part.noConfusion hp⟩

/-- C3, witness: the matching theorem evaluated in the matter state on the
line `"---whatever"`, which must not close a `"---"` fence. -/
theorem c3_witness :
    ((⟨Part.Matter, "\n---whatever".data, none, [], none⟩ : ScanState (List Char)).part
        ≠ Part.Matter ↔ trimEnd "---whatever".data = "---".data) := by
  have h := c3_fence_exact (fun l => l) "---".data "---".data
    ⟨Part.Matter, [], none, [], none⟩
    ⟨Part.Matter, "\n---whatever".data, none, [], none⟩ "---whatever".data (by decide)
  exact h.1 rfl

/-- C4, counterexample: the claim says the entire remainder after an unclosed
opening fence, trimmed, becomes `content`; on input `"---\na\r\nb"` the
remainder is `"a\r\nb"` whose trim still contains the carriage return, but the
code yields content `"a\nb"` because `str::lines` strips the `"\r\n"`. -/
theorem c4_counterexample :
    (parse (fun l => l) "---".data none "---\na\r\nb".data).map (fun p => p.content) =
        some "a\nb".data ∧
    "a\nb".data ≠ trim "a\r\nb".data := by
  constructor
  · decide
  · decide

/-- C4 (amended): if the first line trim-equals the fence, no later line
trim-equals the fence, and the remainder after the opening fence contains no
carriage return, then `parse` returns metadata absent, raw matter empty,
excerpt absent, and content equal to the trimmed remainder. -/
theorem c4_unclosed_matter {α : Type} (e : List Char → α) (d : List Char)
    (ed : Option (List Char)) {first rest : List Char}
    (hf : '\n' ∉ first) (hfence : trimEnd first = d)
    (hnoclose : ∀ l ∈ rlines rest, trimEnd l ≠ d) (hcr : '\r' ∉ rest) :
    parse e d ed (first ++ '\n' :: rest) =
      some ⟨none, trim rest, none, first ++ '\n' :: rest, []⟩ := by
  have hnd : ¬(first ++ '\n' :: rest = [] ∨
      rustLen (first ++ '\n' :: rest) ≤ rustLen d) := by
    rcases trimEnd_decomp hfence with ⟨t, hft, htw⟩
    intro hor
    rcases hor with hnil | hlen
    · exact absurd hnil (by simp)
    · rw [rustLen_append, rustLen_cons, hft, rustLen_append] at hlen
      have h1 : ('\n' : Char).utf8Size = 1 := rfl
      omega
  rw [parse_eq_matter e d ed hnd (splitOnceNL_append rest hf) hfence,
    foldlM_matter_no_close e d (ed.getD d) (rlines rest)
      ⟨Part.Matter, [], none, [], none⟩ rfl hnoclose, finalize_some]
  dsimp only
  rw [List.nil_append, trim_flattenR_rlines hcr]

/-- C4, witness: the unclosed-matter theorem evaluated on `"---\nabc"`. -/
theorem c4_witness :
    parse (fun l => l) "---".data none ("---".data ++ '\n' :: "abc".data) =
      some ⟨none, trim "abc".data, none, "---".data ++ '\n' :: "abc".data, []⟩ :=
  c4_unclosed_matter (fun l => l) "---".data none (by decide) (by decide)
    (by decide) (by decide)

/-- C8: everything scanned after the metadata block closes is accumulated into
content whether or not an excerpt fence is found (the accumulator is never
reset by the excerpt transition), and in particular the two inputs from the
claim produce an excerpt that is also still a prefix of content, and rogue
trailing fences stay in content. -/
theorem c8_content_accumulates :
    (∀ (α : Type) (e : List Char → α) (d ed : List Char) (lines : List (List Char))
      (st st' : ScanState α),
      (st.part = Part.MaybeExcerpt ∨ st.part = Part.Content) →
      (∀ l ∈ lines, '\n' ∉ l) →
      (ed = [] ∨ ∃ c2 cs2, ed = c2 :: cs2 ∧ rustIsWhitespace c2 = false) →
      lines.foldlM (scanLine e d ed) st = some st' →
      st'.acc = st.acc ++ flattenR lines) ∧
    (parse (fun l => l) "---".data none
        "---\nabc: xyz\n---\nfoo\nbar\nbaz\n---\ncontent".data).map
        (fun p => (p.excerpt, p.content)) =
      some (some "foo\nbar\nbaz".data, "foo\nbar\nbaz\n---\ncontent".data) ∧
    (parse (fun l => l) "---".data none "---\nname: bar\n---\n---\n---".data).map
        (fun p => p.content) = some "---\n---".data := by
  refine ⟨?_, by decide, by decide⟩
  intro α e d ed lines st st' hpart hln hed hfold
  rcases foldlM_after_matter e d ed hed lines st hpart hln with ⟨st'', hf, hacc, _, _, _⟩
  rw [hfold] at hf
  injection hf with hf
  rw [hf]
  exact hacc

/-- C8, witness: the accumulation statement evaluated on one line scanned from
the maybe-excerpt state. -/
theorem c8_witness :
    (⟨Part.MaybeExcerpt, "\nabc".data, none, [], none⟩ : ScanState (List Char)).acc =
      (⟨Part.MaybeExcerpt, [], none, [], none⟩ : ScanState (List Char)).acc ++
        flattenR ["abc".data] :=
  c8_content_accumulates.1 (List Char) (fun l => l) "---".data "---".data
    ["abc".data] ⟨Part.MaybeExcerpt, [], none, [], none⟩
    ⟨Part.MaybeExcerpt, "\nabc".data, none, [], none⟩ (Or.inl (by decide)) (by decide)
    (Or.inr ⟨'-', "--".data, rfl, by decide⟩) (by decide)

/-- C9: on every non-panicking result of `parse`, metadata is present if and
only if raw matter is non-empty, and when present it equals the engine's
decode of the raw matter (the engine's decode at this call site is an
infallible function, so "decoding succeeded" always holds). -/
theorem c9_data_iff_matter {α : Type} (e : List Char → α) (d : List Char)
    (ed : Option (List Char)) (input : List Char) (pe : ParsedEntity α)
    (h : parse e d ed input = some pe) :
    (pe.data.isSome = true ↔ pe.matter ≠ []) ∧
      ∀ v, pe.data = some v → v = e pe.matter := by
  rcases parse_cases e d ed input with hdeg | ⟨p0, L, _, _, heq⟩
  · rw [hdeg] at h
    injection h with h
    subst h
    constructor
    · simp
    · intro v hv
      cases hv
  · rw [heq] at h
    cases hf : L.foldlM (scanLine e d (ed.getD d)) ⟨p0, [], none, [], none⟩ with
    | none =>
      rw [hf] at h
      cases h
    | some st =>
      rw [hf, finalize_some] at h
      injection h with h
      rcases foldlM_dataInv e d (ed.getD d) L _ st hf (by simp)
        (fun v hv => by cases hv) with ⟨g1, g2⟩
      rw [← h]
      exact ⟨g1, g2⟩

/-- C9, witness: the invariant evaluated on a concrete parse with front
matter present. -/
theorem c9_witness :
    ((some "abc: xyz".data).isSome = true ↔ "abc: xyz".data ≠ []) ∧
      ∀ v, some "abc: xyz".data = some v → v = "abc: xyz".data := by
  have h := c9_data_iff_matter (fun l => l) "---".data none
    "---\nabc: xyz\n---\nrest".data
    (⟨some "abc: xyz".data, "rest".data, none, "---\nabc: xyz\n---\nrest".data,
      "abc: xyz".data⟩ : ParsedEntity (List Char)) (by decide)
  exact h

/-- C10: the excerpt field can be present and equal to the empty string: on
input `"---\nname: bar\n---\n---\n---"` the first scanned line of the
maybe-excerpt state trim-equals the excerpt fence, so `parse` returns
`excerpt = some ""` rather than `excerpt` absent. -/
theorem c10_empty_excerpt :
    (parse (fun l => l) "---".data none "---\nname: bar\n---\n---\n---".data).map
      (fun p => p.excerpt) = some (some []) := by
  decide

/-! ### Trim-stable texts and single-line scanner steps -/

lemma trimEnd_allWs {l : List Char} (h : allWs l) : trimEnd l = [] := by
  unfold trimEnd
  rw [show l.reverse = l.reverse ++ [] from by simp, dropWhile_ws_append]
  · rfl
  · intro c hc
    exact h c (List.mem_reverse.1 hc)

lemma trim_eq_self_parts {M : List Char} (h : trim M = M) :
    trimStart M = M ∧ trimEnd M = M := by
  have hsub1 : List.Sublist (trimEnd M) M := by
    have := List.dropWhile_sublist (l := M.reverse) rustIsWhitespace
    have h2 := this.reverse
    rw [List.reverse_reverse] at h2
    exact h2
  have hsub2 : List.Sublist (trimStart (trimEnd M)) (trimEnd M) := List.dropWhile_sublist _
  have hlen : (trimEnd M).length = M.length := by
    have h1 := hsub1.length_le
    have h2 := hsub2.length_le
    unfold trim at h
    have h3 : (trimStart (trimEnd M)).length = M.length := by rw [h]
    omega
  have hEnd : trimEnd M = M := hsub1.eq_of_length hlen
  refine ⟨?_, hEnd⟩
  unfold trim at h
  rw [hEnd] at h
  exact h

lemma trim_self_head {M : List Char} (h : trim M = M) (h0 : M ≠ []) :
    ∃ cm M2, M = cm :: M2 ∧ rustIsWhitespace cm = false := by
  rcases trim_eq_self_parts h with ⟨hS, _⟩
  cases M with
  | nil => exact absurd rfl h0
  | cons cm M2 =>
    refine ⟨cm, M2, rfl, ?_⟩
    by_contra hws
    have hws' : rustIsWhitespace cm = true := by
      cases hcm : rustIsWhitespace cm
      · exact absurd hcm hws
      · rfl
    unfold trimStart at hS
    rw [List.dropWhile_cons_of_pos hws'] at hS
    have := (List.dropWhile_sublist (l := M2) rustIsWhitespace).length_le
    have h2 : (M2.dropWhile rustIsWhitespace).length = M2.length + 1 := by rw [hS]; rfl
    omega

lemma trim_self_getLast {M : List Char} (h : trim M = M) (h0 : M ≠ []) :
    ∃ el, M.getLast? = some el ∧ rustIsWhitespace el = false := by
  rcases trim_eq_self_parts h with ⟨_, hE⟩
  cases hM : M.getLast? with
  | none => exact absurd (List.getLast?_eq_none_iff.1 hM) h0
  | some el =>
    refine ⟨el, rfl, ?_⟩
    rcases List.getLast?_eq_some_iff.1 hM with ⟨y, rfl⟩
    by_contra hws
    have hws' : rustIsWhitespace el = true := by
      cases hel : rustIsWhitespace el
      · exact absurd hel hws
      · rfl
    unfold trimEnd at hE
    rw [List.reverse_append, List.reverse_singleton, List.singleton_append,
      List.dropWhile_cons_of_pos hws'] at hE
    have hlen := congrArg List.length hE
    have hsub := (List.dropWhile_sublist (l := y.reverse) rustIsWhitespace).length_le
    simp at hlen hsub
    omega

lemma trim_wrap {x d : List Char} {cm el : Char}
    (hxh : x.head? = some cm) (hcm : rustIsWhitespace cm = false)
    (hel : d.getLast? = some el) (hwel : rustIsWhitespace el = false) :
    trim ('\n' :: (x ++ '\n' :: d)) = x ++ '\n' :: d := by
  rcases List.getLast?_eq_some_iff.1 hel with ⟨y0, rfl⟩
  rcases List.head?_eq_some_iff.1 hxh with ⟨x2, rfl⟩
  unfold trim
  rw [trimEnd_eq_self]
  · unfold trimStart
    rw [List.dropWhile_cons_of_pos (by simp [rustIsWhitespace]), List.cons_append,
      List.dropWhile_cons_of_neg (by simp [hcm])]
  · intro c2 hc2
    rw [show ('\n' :: (cm :: x2 ++ '\n' :: (y0 ++ [el]))) =
      ('\n' :: (cm :: x2 ++ '\n' :: y0)) ++ [el] from by simp,
      List.getLast?_concat] at hc2
    cases hc2
    exact hwel

lemma stripCommentsAux_false_nl (X : List Char) (f : Nat)
    (hf : ('\n' :: X).length < f) :
    stripCommentsAux f false ('\n' :: X) = '\n' :: stripCommentsAux f true X := by
  cases f with
  | zero => omega
  | succ f' =>
    rw [stripCommentsAux_cons, if_neg (by simp),
      show (('\n' : Char) == '\n') = true from by simp,
      stripCommentsAux_fuel f' f' true X (by simp at hf; omega) (by simp at hf; omega)]
    rw [stripCommentsAux_fuel f' (f' + 1) true X (by simp at hf; omega) (by simp at hf; omega)]

lemma stripCommentsAux_true_line {l R : List Char} (f : Nat)
    (hl : '\n' ∉ l) (h0 : l ≠ []) (hcm : commentMatch (l ++ R) = none)
    (hf : (l ++ R).length < f) :
    stripCommentsAux f true (l ++ R) = l ++ stripCommentsAux f false R := by
  cases l with
  | nil => exact absurd rfl h0
  | cons c0 l2 =>
    cases f with
    | zero => omega
    | succ f' =>
      rw [List.cons_append, stripCommentsAux_cons, if_pos rfl]
      rw [List.cons_append] at hcm
      simp only [hcm]
      have hc0 : (c0 == '\n') = false := by
        simp only [beq_eq_false_iff_ne]
        intro hc
        exact hl (by simp [hc])
      simp only [List.length_cons, List.length_append] at hf
      rw [hc0, stripCommentsAux_copy R (fun hm => hl (List.mem_cons_of_mem _ hm)) f'
        (by simp; omega)]
      rw [stripCommentsAux_fuel f' (f' + 1) false R (by omega) (by omega)]
      simp

lemma stripCommentsAux_match_step {cs r : List Char} (f : Nat)
    (hcm : commentMatch cs = some r) (hf : cs.length < f) :
    stripCommentsAux f true cs = stripCommentsAux f false r := by
  cases cs with
  | nil =>
    rw [commentMatch_eq_nil (by rfl)] at hcm
    cases hcm
  | cons c0 rest0 =>
    cases f with
    | zero => omega
    | succ f' =>
      rw [stripCommentsAux_cons, if_pos rfl]
      simp only [hcm]
      have hlt := commentMatch_length hcm
      simp only [List.length_cons] at hf hlt
      exact stripCommentsAux_fuel f' (f' + 1) false r (by omega) (by omega)

lemma comment_line_match {w kr Z : List Char} {k : Char}
    (hw : allWs w) (hk : k ≠ '\n') (hkr : '\n' ∉ kr) :
    commentMatch ((w ++ '#' :: k :: kr) ++ '\n' :: Z) = some ('\n' :: Z) := by
  have hd : ((w ++ '#' :: k :: kr) ++ '\n' :: Z).dropWhile rustIsWhitespace =
      '#' :: k :: (kr ++ '\n' :: Z) := by
    rw [List.append_assoc, dropWhile_ws_append hw, List.cons_append,
      List.dropWhile_cons_of_neg (by simp [rustIsWhitespace]), List.cons_append]
  rw [commentMatch_eq_cons hd, if_pos ⟨rfl, hk⟩]
  congr 1
  rw [show k :: (kr ++ '\n' :: Z) = (k :: kr) ++ '\n' :: Z from by simp,
    List.dropWhile_append_of_pos, List.dropWhile_cons_of_neg (by simp)]
  intro a ha
  rcases List.mem_cons.1 ha with rfl | ha
  · simp [hk]
  · simp
    intro haeq
    exact hkr (haeq ▸ ha)

lemma stripCommentsAux_comment_line {w kr Z : List Char} {k : Char} (f : Nat)
    (hw : allWs w) (hk : k ≠ '\n') (hkr : '\n' ∉ kr)
    (hf : ((w ++ '#' :: k :: kr) ++ '\n' :: Z).length < f) :
    stripCommentsAux f true ((w ++ '#' :: k :: kr) ++ '\n' :: Z) =
      stripCommentsAux f false ('\n' :: Z) :=
  stripCommentsAux_match_step f (comment_line_match hw hk hkr) hf

/-! ### Regions of clean lines and of blank-or-comment lines -/

/-- A line that neither contains a newline nor starts (after leading
whitespace) with `'#'`: comment stripping never touches it. -/
def CleanLine (l : List Char) : Prop :=
  '\n' ∉ l ∧ (l.dropWhile rustIsWhitespace).head? ≠ some '#'

instance instDecidableCleanLine (l : List Char) : Decidable (CleanLine l) := by
  unfold CleanLine
  infer_instance

/-- A newline-free line that is all whitespace, or is a comment line with at
least one character after the `'#'`. -/
def BCLine (l : List Char) : Prop :=
  '\n' ∉ l ∧ (allWs l ∨ ((l.dropWhile rustIsWhitespace).head? = some '#' ∧
    2 ≤ (l.dropWhile rustIsWhitespace).length))

instance instDecidableBCLine (l : List Char) : Decidable (BCLine l) := by
  unfold BCLine
  infer_instance

lemma bcline_decomp {l : List Char} (h : BCLine l)
    (hc : ¬ allWs l) :
    ∃ w k kr, l = w ++ '#' :: k :: kr ∧ allWs w ∧ k ≠ '\n' ∧ '\n' ∉ kr := by
  rcases h with ⟨hln, hall | ⟨hhead, hlen⟩⟩
  · exact absurd hall hc
  · cases hdw : l.dropWhile rustIsWhitespace with
    | nil => rw [hdw] at hhead; cases hhead
    | cons a tl =>
      rw [hdw] at hhead hlen
      injection hhead with hhead
      cases tl with
      | nil => simp at hlen
      | cons k kr =>
        have hl : l = l.takeWhile rustIsWhitespace ++ '#' :: k :: kr := by
          conv_lhs => rw [← List.takeWhile_append_dropWhile (p := rustIsWhitespace) (l := l)]
          rw [hdw, hhead]
        refine ⟨l.takeWhile rustIsWhitespace, k, kr, hl, ?_, ?_, ?_⟩
        · intro c hcc
          exact List.mem_takeWhile_imp hcc
        · intro hk
          apply hln
          rw [hl, hk]
          simp
        · intro hkr
          apply hln
          rw [hl]
          simp [hkr]

lemma flattenR_head (L : List (List Char)) (z : List Char) :
    ∃ r0, flattenR L ++ '\n' :: z = '\n' :: r0 := by
  cases L with
  | nil => exact ⟨z, by simp [flattenR]⟩
  | cons l L' => exact ⟨l ++ (flattenR L' ++ '\n' :: z), by rw [flattenR_cons]; simp⟩

lemma flattenR_cons_shape (l : List Char) (L' : List (List Char)) (z : List Char) :
    flattenR (l :: L') ++ '\n' :: z = '\n' :: (l ++ (flattenR L' ++ '\n' :: z)) := by
  rw [flattenR_cons]
  simp

lemma stripCommentsAux_nl_step {X : List Char} (f' : Nat) (b : Bool)
    (hcm : commentMatch ('\n' :: X) = none) :
    stripCommentsAux (f' + 1) b ('\n' :: X) = '\n' :: stripCommentsAux f' true X := by
  rw [stripCommentsAux_cons]
  by_cases hb : b = true
  · rw [if_pos hb]
    simp only [hcm]
    rw [show (('\n' : Char) == '\n') = true from by simp]
  · rw [if_neg hb, show (('\n' : Char) == '\n') = true from by simp]

lemma commentMatch_clean_region : ∀ (L : List (List Char)) (z : List Char),
    (∀ l ∈ L, CleanLine l) → commentMatch z = none →
    commentMatch (flattenR L ++ '\n' :: z) = none := by
  intro L
  induction L with
  | nil =>
    intro z hL hcz
    rw [show flattenR [] ++ '\n' :: z = '\n' :: z from by simp [flattenR],
      commentMatch_cons_ws (by simp [rustIsWhitespace])]
    exact hcz
  | cons l L' ih =>
    intro z hL hcz
    rw [flattenR_cons_shape, commentMatch_cons_ws (by simp [rustIsWhitespace])]
    rcases hL l (List.mem_cons_self _ _) with ⟨hln, hhead⟩
    cases hdw : l.dropWhile rustIsWhitespace with
    | nil =>
      have hall : allWs l := fun c hc => List.dropWhile_eq_nil_iff.1 hdw c hc
      rw [commentMatch_ws_run hall]
      exact ih z (fun x hx => hL x (List.mem_cons_of_mem _ hx)) hcz
    | cons a tl =>
      have ha : a ≠ '#' := by
        intro haeq
        exact hhead (by rw [hdw, haeq]; rfl)
      have hdw2 : (l ++ (flattenR L' ++ '\n' :: z)).dropWhile rustIsWhitespace =
          a :: (tl ++ (flattenR L' ++ '\n' :: z)) := by
        rw [dropWhile_append_of_ne _ (by rw [hdw]; simp), hdw, List.cons_append]
      exact commentMatch_of_head hdw2 ha

lemma stripCommentsAux_clean_region : ∀ (L : List (List Char)) (z : List Char) (b : Bool)
    (f : Nat), (∀ l ∈ L, CleanLine l) → '\n' ∉ z → commentMatch z = none →
    (flattenR L ++ '\n' :: z).length < f →
    stripCommentsAux f b (flattenR L ++ '\n' :: z) = flattenR L ++ '\n' :: z := by
  intro L
  induction L with
  | nil =>
    intro z b f hL hz hcz hf
    rw [show flattenR [] ++ '\n' :: z = '\n' :: z from by simp [flattenR]] at hf ⊢
    cases f with
    | zero => omega
    | succ f' =>
      rw [stripCommentsAux_nl_step f' b
        (by rw [commentMatch_cons_ws (by simp [rustIsWhitespace])]; exact hcz)]
      rw [stripCommentsAux_no_newline hz hcz f' true (by simp at hf; omega)]
  | cons l L' ih =>
    intro z b f hL hz hcz hf
    rw [flattenR_cons_shape] at hf ⊢
    have hcm0 : commentMatch ('\n' :: (l ++ (flattenR L' ++ '\n' :: z))) = none := by
      have := commentMatch_clean_region (l :: L') z hL hcz
      rw [flattenR_cons_shape] at this
      exact this
    cases f with
    | zero => omega
    | succ f' =>
      rw [stripCommentsAux_nl_step f' b hcm0]
      rcases hL l (List.mem_cons_self _ _) with ⟨hln, _⟩
      cases l with
      | nil =>
        rw [List.nil_append]
        rw [ih z true f' (fun x hx => hL x (List.mem_cons_of_mem _ hx)) hz hcz
          (by simp at hf ⊢; omega)]
      | cons c0 l2 =>
        have hcml : commentMatch ((c0 :: l2) ++ (flattenR L' ++ '\n' :: z)) = none := by
          have := hcm0
          rw [commentMatch_cons_ws (by simp [rustIsWhitespace])] at this
          exact this
        rw [stripCommentsAux_true_line f' hln (by simp) hcml (by simp at hf ⊢; omega)]
        rw [ih z false f' (fun x hx => hL x (List.mem_cons_of_mem _ hx)) hz hcz
          (by simp at hf ⊢; omega)]

lemma commentMatch_bc_region : ∀ (L : List (List Char)) (z : List Char),
    (∀ l ∈ L, BCLine l) → commentMatch z = none →
    commentMatch (flattenR L ++ '\n' :: z) = none ∨
    ∃ L', (∀ l ∈ L', BCLine l) ∧ L'.length < L.length ∧
      commentMatch (flattenR L ++ '\n' :: z) = some (flattenR L' ++ '\n' :: z) := by
  intro L
  induction L with
  | nil =>
    intro z hL hcz
    refine Or.inl ?_
    rw [show flattenR [] ++ '\n' :: z = '\n' :: z from by simp [flattenR],
      commentMatch_cons_ws (by simp [rustIsWhitespace])]
    exact hcz
  | cons l L' ih =>
    intro z hL hcz
    rw [flattenR_cons_shape, commentMatch_cons_ws (by simp [rustIsWhitespace])]
    by_cases hall : allWs l
    · rw [commentMatch_ws_run hall]
      rcases ih z (fun x hx => hL x (List.mem_cons_of_mem _ hx)) hcz with hn | ⟨L2, h1, h2, h3⟩
      · exact Or.inl hn
      · exact Or.inr ⟨L2, h1, by simp; omega, h3⟩
    · rcases bcline_decomp (hL l (List.mem_cons_self _ _)) hall with ⟨w, k, kr, hlw, hw, hk, hkr⟩
      rcases flattenR_head L' z with ⟨r0, hr0⟩
      refine Or.inr ⟨L', fun x hx => hL x (List.mem_cons_of_mem _ hx), by simp, ?_⟩
      rw [hlw, hr0]
      exact comment_line_match hw hk hkr

lemma allWs_cons {c : Char} {l : List Char} (hc : rustIsWhitespace c = true)
    (hl : allWs l) : allWs (c :: l) := by
  intro x hx
  rcases List.mem_cons.1 hx with rfl | hx
  · exact hc
  · exact hl x hx

lemma allWs_append {a b : List Char} (ha : allWs a) (hb : allWs b) : allWs (a ++ b) := by
  intro x hx
  rcases List.mem_append.1 hx with hx | hx
  · exact ha x hx
  · exact hb x hx

lemma stripCommentsAux_nl_step' {X : List Char} (f : Nat) (b : Bool)
    (hcm : commentMatch ('\n' :: X) = none) (hf : ('\n' :: X).length < f) :
    stripCommentsAux f b ('\n' :: X) = '\n' :: stripCommentsAux f true X := by
  cases f with
  | zero => omega
  | succ f' =>
    rw [stripCommentsAux_nl_step f' b hcm,
      stripCommentsAux_fuel f' (f' + 1) true X (by simp at hf; omega)
        (by simp at hf; omega)]

lemma stripCommentsAux_bc_region : ∀ (n : Nat) (L : List (List Char)), L.length ≤ n →
    ∀ (z : List Char) (b : Bool) (f : Nat),
    (∀ l ∈ L, BCLine l) → '\n' ∉ z → commentMatch z = none →
    (flattenR L ++ '\n' :: z).length < f →
    ∃ W, allWs W ∧
      stripCommentsAux f b (flattenR L ++ '\n' :: z) = W ++ '\n' :: z := by
  intro n
  induction n with
  | zero =>
    intro L hlen z b f hL hz hcz hf
    have h0 : L = [] := List.length_eq_zero.1 (Nat.le_zero.1 hlen)
    subst h0
    rw [show flattenR [] ++ '\n' :: z = '\n' :: z from by simp [flattenR]] at hf ⊢
    refine ⟨[], allWs_nil, ?_⟩
    rw [stripCommentsAux_nl_step' f b
      (by rw [commentMatch_cons_ws (by simp [rustIsWhitespace])]; exact hcz) hf,
      stripCommentsAux_no_newline hz hcz f true (by simp at hf; omega)]
    rfl
  | succ n ih =>
    intro L hlen z b f hL hz hcz hf
    cases L with
    | nil => exact ih [] (by simp) z b f hL hz hcz hf
    | cons l L' =>
      have hL' : ∀ x ∈ L', BCLine x := fun x hx => hL x (List.mem_cons_of_mem _ hx)
      have hlen' : L'.length ≤ n := by simp at hlen; omega
      rw [flattenR_cons_shape] at hf ⊢
      have hfR : (flattenR L' ++ '\n' :: z).length < f := by
        simp only [List.length_cons, List.length_append] at hf ⊢
        omega
      by_cases hall : allWs l
      · cases hcmR : commentMatch (flattenR L' ++ '\n' :: z) with
        | none =>
          have hcm0 : commentMatch ('\n' :: (l ++ (flattenR L' ++ '\n' :: z))) = none := by
            rw [commentMatch_cons_ws (by simp [rustIsWhitespace]),
              commentMatch_ws_run hall]
            exact hcmR
          rw [stripCommentsAux_nl_step' f b hcm0 hf]
          rcases ih L' hlen' z false f hL' hz hcz hfR with ⟨W', hW', heq⟩
          cases l with
          | nil =>
            rcases ih L' hlen' z true f hL' hz hcz hfR with ⟨W2, hW2, heq2⟩
            refine ⟨'\n' :: W2, allWs_cons (by simp [rustIsWhitespace]) hW2, ?_⟩
            rw [List.nil_append, heq2]
            rfl
          | cons c0 l2 =>
            have hln : '\n' ∉ (c0 :: l2) :=
              (hL (c0 :: l2) (List.mem_cons_self _ _)).1
            have hcml : commentMatch ((c0 :: l2) ++ (flattenR L' ++ '\n' :: z)) = none := by
              have h2 := hcm0
              rw [commentMatch_cons_ws (by simp [rustIsWhitespace])] at h2
              exact h2
            rw [stripCommentsAux_true_line f hln (by simp) hcml
              (by simp only [List.length_cons, List.length_append] at hf ⊢; omega), heq]
            refine ⟨'\n' :: ((c0 :: l2) ++ W'), allWs_cons (by simp [rustIsWhitespace])
              (allWs_append hall hW'), ?_⟩
            simp
        | some r =>
          rcases commentMatch_bc_region (l :: L') z hL hcz with hn | ⟨L2, hL2, hlen2, hsome⟩
          · rw [flattenR_cons_shape, commentMatch_cons_ws (by simp [rustIsWhitespace]),
              commentMatch_ws_run hall, hcmR] at hn
            cases hn
          · rw [flattenR_cons_shape] at hsome
            have hfr : (flattenR L2 ++ '\n' :: z).length <
                ('\n' :: (l ++ (flattenR L' ++ '\n' :: z))).length := by
              have := commentMatch_length hsome
              omega
            have hlenL2 : L2.length ≤ n := by simp at hlen2; omega
            by_cases hb : b = true
            · subst hb
              rw [stripCommentsAux_match_step f hsome hf]
              rcases ih L2 hlenL2 z false f hL2 hz hcz (by omega) with ⟨W', hW', heq⟩
              exact ⟨W', hW', heq⟩
            · have hbf : b = false := by
                cases b
                · rfl
                · exact absurd rfl hb
              subst hbf
              rw [stripCommentsAux_false_nl _ f hf]
              have hsome2 : commentMatch (l ++ (flattenR L' ++ '\n' :: z)) =
                  some (flattenR L2 ++ '\n' :: z) := by
                have h2 := hsome
                rw [commentMatch_cons_ws (by simp [rustIsWhitespace])] at h2
                exact h2
              rw [stripCommentsAux_match_step f hsome2
                (by simp only [List.length_cons] at hf; omega)]
              rcases ih L2 hlenL2 z false f hL2 hz hcz (by omega) with ⟨W', hW', heq⟩
              exact ⟨'\n' :: W', allWs_cons (by simp [rustIsWhitespace]) hW', by rw [heq]; rfl⟩
      · rcases bcline_decomp (hL l (List.mem_cons_self _ _)) hall with
          ⟨w, k, kr, hlw, hw, hk, hkr⟩
        rcases flattenR_head L' z with ⟨r0, hr0⟩
        have hsome : commentMatch ('\n' :: (l ++ (flattenR L' ++ '\n' :: z))) =
            some (flattenR L' ++ '\n' :: z) := by
          rw [commentMatch_cons_ws (by simp [rustIsWhitespace]), hlw, hr0]
          exact comment_line_match hw hk hkr
        rcases ih L' hlen' z false f hL' hz hcz hfR with ⟨W', hW', heq⟩
        by_cases hb : b = true
        · subst hb
          rw [stripCommentsAux_match_step f hsome hf, heq]
          exact ⟨W', hW', rfl⟩
        · have hbf : b = false := by
            cases b
            · rfl
            · exact absurd rfl hb
          subst hbf
          rw [stripCommentsAux_false_nl _ f hf]
          have hsome2 : commentMatch (l ++ (flattenR L' ++ '\n' :: z)) =
              some (flattenR L' ++ '\n' :: z) := by
            have h2 := hsome
            rw [commentMatch_cons_ws (by simp [rustIsWhitespace])] at h2
            exact h2
          rw [stripCommentsAux_match_step f hsome2
            (by simp only [List.length_cons] at hf; omega), heq]
          exact ⟨'\n' :: W', allWs_cons (by simp [rustIsWhitespace]) hW', rfl⟩

lemma rlines_flattenR : ∀ (L : List (List Char)) (z : List Char),
    (∀ l ∈ L, '\n' ∉ l ∧ '\r' ∉ l) →
    ∃ r, flattenR L ++ '\n' :: z = '\n' :: r ∧ rlines r = L ++ rlines z := by
  intro L
  induction L with
  | nil =>
    intro z h
    exact ⟨z, by simp [flattenR], by simp⟩
  | cons l L' ih =>
    intro z h
    rcases ih z (fun x hx => h x (List.mem_cons_of_mem _ hx)) with ⟨r', hr1, hr2⟩
    refine ⟨l ++ '\n' :: r', ?_, ?_⟩
    · rw [flattenR_cons_shape, hr1]
    · rw [rlines_append l r', splitNL_single (h l (List.mem_cons_self _ _)).1]
      rw [hr2]
      simp [stripCR_eq_self (h l (List.mem_cons_self _ _)).2]

lemma bcline_trimEnd_ne {l d : List Char} {dc : Char} (hbc : BCLine l)
    (hdh : d.head? = some dc) (hws : rustIsWhitespace dc = false) (hch : dc ≠ '#') :
    trimEnd l ≠ d := by
  intro heq
  rcases trimEnd_decomp heq with ⟨t, hlt, htw⟩
  rcases List.head?_eq_some_iff.1 hdh with ⟨d3, rfl⟩
  rcases hbc with ⟨hln, hall | ⟨hhead, hlen⟩⟩
  · have hdc : rustIsWhitespace dc = true := hall dc (by rw [hlt]; simp)
    rw [hws] at hdc
    cases hdc
  · rw [hlt, List.cons_append, List.dropWhile_cons_of_neg (by simp [hws])] at hhead
    have : dc = '#' := by
      have h2 : (dc :: (d3 ++ t)).head? = some dc := rfl
      rw [h2] at hhead
      injection hhead
    exact hch this

lemma stripCR_of_trimEnd_self {d : List Char} (h : trimEnd d = d) : stripCR d = d := by
  unfold stripCR
  rw [if_neg]
  intro hc
  have := trimEnd_getLast_not_ws h '\r' hc
  simp [rustIsWhitespace] at this

/-- C7, counterexample: the claim says a metadata block consisting only of
comment lines yields metadata absent; but the line `"#"` (first non-whitespace
character `'#'`, nothing after it) is not matched by the comment regex
`^\s*#[^\n]+`, so `"---\n#\n---\nThis is content"` yields raw matter `"#"` and
metadata present. -/
theorem c7_counterexample :
    (parse (fun l => l) "---".data none "---\n#\n---\nThis is content".data).map
      (fun p => (p.data, p.matter)) = some (some "#".data, "#".data) := by
  decide

/-- C7 (amended): a metadata block consisting only of whitespace lines and of
comment lines having at least one character after the `'#'` (all lines free of
carriage returns) yields metadata absent and raw matter empty — the engine is
never consulted, as the result does not depend on `e` — while content is still
the trimmed text after the closing fence. -/
theorem c7_blank_or_comment_block {α : Type} (e : List Char → α) {d : List Char}
    {dc : Char} {dr : List Char} (ed : Option (List Char))
    (Mlines : List (List Char)) (B : List Char)
    (hd : d = dc :: dr) (hdw : rustIsWhitespace dc = false) (hdc : dc ≠ '#')
    (hdn : '\n' ∉ d) (htd : trimEnd d = d)
    (hM : ∀ l ∈ Mlines, BCLine l ∧ '\r' ∉ l)
    (hB : '\r' ∉ B)
    (hed : ∀ edv, ed = some edv →
      edv = [] ∨ ∃ c2 cs2, edv = c2 :: cs2 ∧ rustIsWhitespace c2 = false) :
    (parse e d ed (d ++ flattenR Mlines ++ '\n' :: (d ++ '\n' :: B))).map
      (fun p => (p.data, p.matter, p.content)) = some (none, [], trim B) := by
  have hdh : d.head? = some dc := by rw [hd]; rfl
  have hedEff : ed.getD d = [] ∨
      ∃ c2 cs2, ed.getD d = c2 :: cs2 ∧ rustIsWhitespace c2 = false := by
    cases ed with
    | none => exact Or.inr ⟨dc, dr, by rw [hd]; rfl, hdw⟩
    | some edv => exact hed edv rfl
  rcases rlines_flattenR Mlines (d ++ '\n' :: B)
    (fun l hl => ⟨(hM l hl).1.1, (hM l hl).2⟩) with ⟨r, hr1, hr2⟩
  have hinp : d ++ flattenR Mlines ++ '\n' :: (d ++ '\n' :: B) = d ++ '\n' :: r := by
    rw [List.append_assoc, hr1]
  rw [hinp]
  have hnd : ¬(d ++ '\n' :: r = [] ∨ rustLen (d ++ '\n' :: r) ≤ rustLen d) := by
    intro hor
    rcases hor with hnil | hlen
    · rw [hd] at hnil
      simp at hnil
    · rw [rustLen_append, rustLen_cons] at hlen
      have h1 : ('\n' : Char).utf8Size = 1 := rfl
      omega
  rw [parse_eq_matter e d ed hnd (splitOnceNL_append r hdn) htd]
  have hrl : rlines r = Mlines ++ ([d] ++ rlines B) := by
    rw [hr2, rlines_append d B, splitNL_single hdn]
    simp [stripCR_of_trimEnd_self htd]
  rw [hrl, List.foldlM_append,
    foldlM_matter_no_close e d (ed.getD d) Mlines ⟨Part.Matter, [], none, [], none⟩ rfl
      (fun l hl => bcline_trimEnd_ne (hM l hl).1 hdh hdw hdc)]
  have hbind1 : (do
      let b ← some (⟨Part.Matter, [] ++ flattenR Mlines, none, [], none⟩ : ScanState α)
      ([d] ++ rlines B).foldlM (scanLine e d (ed.getD d)) b) =
      ([d] ++ rlines B).foldlM (scanLine e d (ed.getD d))
        ⟨Part.Matter, [] ++ flattenR Mlines, none, [], none⟩ := rfl
  rw [hbind1, List.cons_append, List.foldlM_cons]
  have hcmd : commentMatch d = none := by
    have hdw2 : d.dropWhile rustIsWhitespace = dc :: dr := by
      rw [hd, List.dropWhile_cons_of_neg (by simp [hdw])]
    exact commentMatch_of_head hdw2 hdc
  rcases stripCommentsAux_bc_region Mlines.length Mlines le_rfl d true
    ((flattenR Mlines ++ '\n' :: d).length + 1) (fun l hl => (hM l hl).1) hdn hcmd
    (by omega) with ⟨W, hW, hsc⟩
  obtain ⟨el, hel⟩ : ∃ el, d.getLast? = some el := by
    cases hgl : d.getLast? with
    | none =>
      have : d = [] := List.getLast?_eq_none_iff.1 hgl
      rw [hd] at this
      cases this
    | some el => exact ⟨el, rfl⟩
  have hwel : rustIsWhitespace el = false := trimEnd_getLast_not_ws htd el hel
  have htrim : trim (W ++ '\n' :: d) = d := by
    unfold trim
    rw [trimEnd_eq_self]
    · unfold trimStart
      rw [dropWhile_ws_append hW, List.dropWhile_cons_of_pos (by simp [rustIsWhitespace]),
        hd, List.dropWhile_cons_of_neg (by simp [hdw])]
    · intro c2 hc2
      rcases List.getLast?_eq_some_iff.1 hel with ⟨y0, hy0⟩
      rw [show W ++ '\n' :: d = (W ++ '\n' :: y0) ++ [el] from by rw [hy0]; simp,
        List.getLast?_concat] at hc2
      cases hc2
      exact hwel
  have hstrip : stripSuffix (trim (stripComments
      (([] : List Char) ++ flattenR Mlines ++ '\n' :: d))) d = some [] := by
    rw [List.nil_append]
    unfold stripComments
    rw [hsc, htrim]
    have h2 := stripSuffix_append [] d
    rw [List.nil_append] at h2
    exact h2
  have hstep : scanLine e d (ed.getD d)
      ⟨Part.Matter, [] ++ flattenR Mlines, none, [], none⟩ d =
      some ⟨Part.MaybeExcerpt, [], none, [], none⟩ := by
    unfold scanLine
    rw [if_pos htd]
    simp only [hstrip]
    rw [if_pos (by rfl)]
  rw [hstep]
  simp only [List.nil_append]
  have hbind2 : (do
      let b ← some (⟨Part.MaybeExcerpt, [], none, [], none⟩ : ScanState α)
      (rlines B).foldlM (scanLine e d (ed.getD d)) b) =
      (rlines B).foldlM (scanLine e d (ed.getD d))
        ⟨Part.MaybeExcerpt, [], none, [], none⟩ := rfl
  rw [hbind2]
  rcases foldlM_after_matter e d (ed.getD d) hedEff (rlines B)
    ⟨Part.MaybeExcerpt, [], none, [], none⟩ (Or.inl rfl) (rlines_no_newline B) with
    ⟨st3, hfold3, hacc3, hdata3, hmat3, _⟩
  rw [hfold3, finalize_some]
  simp only [Option.map_some']
  rw [hdata3, hmat3, hacc3]
  dsimp only
  rw [List.nil_append, trim_flattenR_rlines hB]

/-- C7, witness: the amended theorem evaluated on the comment-and-blank block
`"---\n # a comment\n\n---\nThis is content"`. -/
theorem c7_witness :
    (parse (fun l => l) "---".data none
      ("---".data ++ flattenR [" # a comment".data, [] ] ++
        '\n' :: ("---".data ++ '\n' :: "This is content".data))).map
      (fun p => (p.data, p.matter, p.content)) =
      some (none, [], trim "This is content".data) :=
  c7_blank_or_comment_block (fun l => l) none [" # a comment".data, []]
    "This is content".data rfl (by decide) (by decide) (by decide) (by decide)
    (by decide) (by decide) (fun edv h => nomatch h)

/-- C1, counterexample: the claim says raw matter equals the metadata text M
and metadata equals the engine's decode of M; but the captured block is trimmed
of surrounding whitespace before the decode, so for M = `" a"` (no comment, no
fence line, decodable) the raw matter is `"a"` ≠ M, and with the identity
engine the metadata is `"a"` ≠ engine(M) = `" a"`. -/
theorem c1_counterexample :
    (parse (fun l => l) "---".data none "---\n a\n---\nb".data).map
      (fun p => (p.matter, p.data)) = some ("a".data, some "a".data) ∧
    " a".data ≠ "a".data := by
  constructor
  · decide
  · decide

/-- C1 (amended): for every metadata text M that is non-empty, free of carriage
returns, already trimmed of surrounding whitespace, and containing no line that
trim-equals the fence `"---"` and no line whose first non-whitespace character
is `'#'`, and every body text B free of carriage returns, parse on
`"---\n" ++ M ++ "\n---\n" ++ B` returns metadata present and equal to the
engine's decode of M, raw matter M, and content equal to B trimmed. -/
theorem c1_round_trip {α : Type} (e : List Char → α) (ed : Option (List Char))
    (M B : List Char)
    (hM0 : M ≠ []) (hMr : '\r' ∉ M) (hMt : trim M = M)
    (hMf : ∀ l ∈ splitNL M, trimEnd l ≠ "---".data)
    (hMc : ∀ l ∈ splitNL M, (l.dropWhile rustIsWhitespace).head? ≠ some '#')
    (hBr : '\r' ∉ B)
    (hed : ∀ edv, ed = some edv →
      edv = [] ∨ ∃ c2 cs2, edv = c2 :: cs2 ∧ rustIsWhitespace c2 = false) :
    (parse e "---".data ed
      ("---".data ++ '\n' :: (M ++ '\n' :: ("---".data ++ '\n' :: B)))).map
      (fun p => (p.data, p.matter, p.content)) =
      some (some (e M), M, trim B) := by
  have hdn : '\n' ∉ "---".data := by decide
  have hedEff : ed.getD "---".data = [] ∨
      ∃ c2 cs2, ed.getD "---".data = c2 :: cs2 ∧ rustIsWhitespace c2 = false := by
    cases ed with
    | none => exact Or.inr ⟨'-', "--".data, rfl, by decide⟩
    | some edv => exact hed edv rfl
  have hnd : ¬("---".data ++ '\n' :: (M ++ '\n' :: ("---".data ++ '\n' :: B)) = [] ∨
      rustLen ("---".data ++ '\n' :: (M ++ '\n' :: ("---".data ++ '\n' :: B))) ≤
        rustLen "---".data) := by
    intro hor
    rcases hor with hnil | hlen
    · simp at hnil
    · rw [rustLen_append] at hlen
      have h1 : 1 ≤ rustLen ('\n' :: (M ++ '\n' :: ("---".data ++ '\n' :: B))) := by
        rw [rustLen_cons]
        have h2 : ('\n' : Char).utf8Size = 1 := rfl
        omega
      omega
  rw [parse_eq_matter e "---".data ed hnd
    (splitOnceNL_append (M ++ '\n' :: ("---".data ++ '\n' :: B)) hdn) (by decide)]
  have hrl : rlines (M ++ '\n' :: ("---".data ++ '\n' :: B)) =
      splitNL M ++ ("---".data :: rlines B) := by
    rw [rlines_append M ("---".data ++ '\n' :: B),
      map_stripCR_of_no_cr (fun l hl hc => hMr (splitNL_chars l hl '\r' hc)),
      rlines_append "---".data B, splitNL_single hdn]
    simp [stripCR_of_trimEnd_self (show trimEnd "---".data = "---".data from by decide)]
  rw [hrl, List.foldlM_append,
    foldlM_matter_no_close e "---".data (ed.getD "---".data) (splitNL M)
      ⟨Part.Matter, [], none, [], none⟩ rfl hMf]
  have hbind1 : (do
      let b ← some (⟨Part.Matter, [] ++ flattenR (splitNL M), none, [], none⟩ : ScanState α)
      ("---".data :: rlines B).foldlM (scanLine e "---".data (ed.getD "---".data)) b) =
      ("---".data :: rlines B).foldlM (scanLine e "---".data (ed.getD "---".data))
        ⟨Part.Matter, [] ++ flattenR (splitNL M), none, [], none⟩ := rfl
  rw [hbind1, List.foldlM_cons]
  rcases trim_self_head hMt hM0 with ⟨cm, M2, hMcons, hcm⟩
  rcases trim_self_getLast hMt hM0 with ⟨el, helM, hwelM⟩
  have hscregion : stripComments
      (([] : List Char) ++ flattenR (splitNL M) ++ '\n' :: "---".data) =
      flattenR (splitNL M) ++ '\n' :: "---".data := by
    rw [List.nil_append]
    unfold stripComments
    exact stripCommentsAux_clean_region (splitNL M) "---".data true _
      (fun l hl => ⟨splitNL_no_newline M l hl, hMc l hl⟩) (by decide) (by decide)
      (by omega)
  have htr : trim (flattenR (splitNL M) ++ '\n' :: "---".data) =
      M ++ '\n' :: "---".data := by
    rw [flattenR_splitNL]
    show trim ('\n' :: (M ++ '\n' :: "---".data)) = M ++ '\n' :: "---".data
    exact trim_wrap (show M.head? = some cm from by rw [hMcons]; rfl) hcm
      (show "---".data.getLast? = some '-' from by decide) (by decide)
  have hss : stripSuffix (M ++ '\n' :: "---".data) "---".data = some (M ++ ['\n']) := by
    have h2 := stripSuffix_append (M ++ ['\n']) "---".data
    rw [List.append_assoc, List.singleton_append] at h2
    exact h2
  have htm : trimMatchesNL (M ++ ['\n']) = M := by
    refine trimMatchesNL_append_nl ?_ ?_
    · intro c hc h
      rw [hMcons] at hc
      simp at hc
      subst hc
      rw [h] at hcm
      simp [rustIsWhitespace] at hcm
    · intro c hc h
      rw [helM] at hc
      simp at hc
      subst hc
      rw [h] at hwelM
      simp [rustIsWhitespace] at hwelM
  have hstrip2 : stripSuffix (trim (stripComments
      (([] : List Char) ++ flattenR (splitNL M) ++ '\n' :: "---".data))) "---".data =
      some (M ++ ['\n']) := by
    rw [hscregion, htr, hss]
  have hstep : scanLine e "---".data (ed.getD "---".data)
      ⟨Part.Matter, [] ++ flattenR (splitNL M), none, [], none⟩ "---".data =
      some ⟨Part.MaybeExcerpt, [], some (e M), M, none⟩ := by
    unfold scanLine
    rw [if_pos (by decide)]
    simp only [hstrip2]
    rw [htm, if_neg hM0]
  rw [hstep]
  have hbind2 : (do
      let b ← some (⟨Part.MaybeExcerpt, [], some (e M), M, none⟩ : ScanState α)
      (rlines B).foldlM (scanLine e "---".data (ed.getD "---".data)) b) =
      (rlines B).foldlM (scanLine e "---".data (ed.getD "---".data))
        ⟨Part.MaybeExcerpt, [], some (e M), M, none⟩ := rfl
  rw [hbind2]
  rcases foldlM_after_matter e "---".data (ed.getD "---".data) hedEff (rlines B)
    ⟨Part.MaybeExcerpt, [], some (e M), M, none⟩ (Or.inl rfl) (rlines_no_newline B) with
    ⟨st3, hfold3, hacc3, hdata3, hmat3, _⟩
  rw [hfold3, finalize_some]
  simp only [Option.map_some']
  rw [hdata3, hmat3, hacc3]
  dsimp only
  rw [List.nil_append, trim_flattenR_rlines hBr]

/-- C1, witness: the amended round trip evaluated with the identity engine on
`M = "abc: xyz"`, `B = "Other stuff"`. -/
theorem c1_witness :
    (parse (fun l => l) "---".data none
      ("---".data ++ '\n' :: ("abc: xyz".data ++ '\n' ::
        ("---".data ++ '\n' :: "Other stuff".data)))).map
      (fun p => (p.data, p.matter, p.content)) =
      some (some "abc: xyz".data, "abc: xyz".data, trim "Other stuff".data) :=
  c1_round_trip (fun l => l) none "abc: xyz".data "Other stuff".data
    (by decide) (by decide) (by decide) (by decide) (by decide) (by decide)
    (fun edv h => nomatch h)

lemma commentMatch_trimmed_head {M R : List Char} (h0 : M ≠ []) (ht : trim M = M)
    (hc : (M.dropWhile rustIsWhitespace).head? ≠ some '#') :
    commentMatch (M ++ R) = none := by
  rcases trim_self_head ht h0 with ⟨cm, M2, hM, hcm⟩
  have hdw : M.dropWhile rustIsWhitespace = M := by
    rw [hM]
    exact List.dropWhile_cons_of_neg (by simp [hcm])
  have hne : cm ≠ '#' := by
    intro h
    apply hc
    rw [hdw, hM, h]
    rfl
  have hdw2 : (M ++ R).dropWhile rustIsWhitespace = cm :: (M2 ++ R) := by
    rw [dropWhile_append_of_ne R (by rw [hdw, hM]; simp), hdw, hM]
    simp
  exact commentMatch_of_head hdw2 hne

/-- C6, counterexample: the claim says a full-line comment is removed in its
entirety including its own line ending; the regex `(?m)^\s*#[^\n]+` does not
match the comment's trailing newline, so on
`"---\na: 1\n# c\nb: 2\n---\nX"` the raw matter is `"a: 1\n\nb: 2"` — a blank
line survives where the comment stood — not `"a: 1\nb: 2"`. -/
theorem c6_counterexample :
    (parse (fun l => l) "---".data none "---\na: 1\n# c\nb: 2\n---\nX".data).map
      (fun p => p.matter) = some "a: 1\n\nb: 2".data ∧
    "a: 1\n\nb: 2".data ≠ "a: 1\nb: 2".data := by
  constructor
  · decide
  · decide

/-- C6 (amended): when the captured block is M1, then a full-line comment
(whitespace, `'#'`, at least one further character), then M2 — with M1, M2
non-empty, trimmed, newline- and CR-free, not trim-equal to the fence, and not
starting with `'#'` — the comment's text is removed before decoding but its
line ending survives: raw matter is `M1 ++ "\n\n" ++ M2`, metadata is the
engine's decode of that text, and the body B (which may itself contain
comment-shaped lines) is returned as content merely trimmed, never
comment-stripped. -/
theorem c6_comment_strip {α : Type} (e : List Char → α) (ed : Option (List Char))
    (M1 M2 w kr B : List Char) (k : Char)
    (hM10 : M1 ≠ []) (hM1r : '\r' ∉ M1) (hM1n : '\n' ∉ M1) (hM1t : trim M1 = M1)
    (hM1f : trimEnd M1 ≠ "---".data)
    (hM1c : (M1.dropWhile rustIsWhitespace).head? ≠ some '#')
    (hM20 : M2 ≠ []) (hM2r : '\r' ∉ M2) (hM2n : '\n' ∉ M2) (hM2t : trim M2 = M2)
    (hM2f : trimEnd M2 ≠ "---".data)
    (hM2c : (M2.dropWhile rustIsWhitespace).head? ≠ some '#')
    (hw : allWs w) (hwn : '\n' ∉ w) (hwr : '\r' ∉ w)
    (hk : k ≠ '\n') (hkcr : k ≠ '\r') (hkr : '\n' ∉ kr) (hkrr : '\r' ∉ kr)
    (hBr : '\r' ∉ B)
    (hed : ∀ edv, ed = some edv →
      edv = [] ∨ ∃ c2 cs2, edv = c2 :: cs2 ∧ rustIsWhitespace c2 = false) :
    (parse e "---".data ed
      ("---".data ++ '\n' :: (M1 ++ '\n' :: ((w ++ '#' :: k :: kr) ++ '\n' ::
        (M2 ++ '\n' :: ("---".data ++ '\n' :: B)))))).map
      (fun p => (p.data, p.matter, p.content)) =
      some (some (e (M1 ++ '\n' :: '\n' :: M2)), M1 ++ '\n' :: '\n' :: M2, trim B) := by
  have hdn : '\n' ∉ "---".data := by decide
  have hedEff : ed.getD "---".data = [] ∨
      ∃ c2 cs2, ed.getD "---".data = c2 :: cs2 ∧ rustIsWhitespace c2 = false := by
    cases ed with
    | none => exact Or.inr ⟨'-', "--".data, rfl, by decide⟩
    | some edv => exact hed edv rfl
  have hC : '\n' ∉ w ++ '#' :: k :: kr := by
    intro hm
    rcases List.mem_append.1 hm with h1 | h1
    · exact hwn h1
    · rcases List.mem_cons.1 h1 with h2 | h2
      · exact absurd h2 (by decide)
      · rcases List.mem_cons.1 h2 with h3 | h3
        · exact hk h3.symm
        · exact hkr h3
  have hCr : '\r' ∉ w ++ '#' :: k :: kr := by
    intro hm
    rcases List.mem_append.1 hm with h1 | h1
    · exact hwr h1
    · rcases List.mem_cons.1 h1 with h2 | h2
      · exact absurd h2 (by decide)
      · rcases List.mem_cons.1 h2 with h3 | h3
        · exact hkcr h3.symm
        · exact hkrr h3
  have hnd : ¬("---".data ++ '\n' :: (M1 ++ '\n' :: ((w ++ '#' :: k :: kr) ++ '\n' ::
      (M2 ++ '\n' :: ("---".data ++ '\n' :: B)))) = [] ∨
      rustLen ("---".data ++ '\n' :: (M1 ++ '\n' :: ((w ++ '#' :: k :: kr) ++ '\n' ::
        (M2 ++ '\n' :: ("---".data ++ '\n' :: B))))) ≤ rustLen "---".data) := by
    intro hor
    rcases hor with hnil | hlen
    · simp at hnil
    · rw [rustLen_append] at hlen
      have h1 : 1 ≤ rustLen ('\n' :: (M1 ++ '\n' :: ((w ++ '#' :: k :: kr) ++ '\n' ::
          (M2 ++ '\n' :: ("---".data ++ '\n' :: B))))) := by
        rw [rustLen_cons]
        have h2 : ('\n' : Char).utf8Size = 1 := rfl
        omega
      omega
  rw [parse_eq_matter e "---".data ed hnd
    (splitOnceNL_append (M1 ++ '\n' :: ((w ++ '#' :: k :: kr) ++ '\n' ::
      (M2 ++ '\n' :: ("---".data ++ '\n' :: B)))) hdn) (by decide)]
  have hrl : rlines (M1 ++ '\n' :: ((w ++ '#' :: k :: kr) ++ '\n' ::
      (M2 ++ '\n' :: ("---".data ++ '\n' :: B)))) =
      [M1, w ++ '#' :: k :: kr, M2] ++ ("---".data :: rlines B) := by
    rw [rlines_append M1 ((w ++ '#' :: k :: kr) ++ '\n' ::
        (M2 ++ '\n' :: ("---".data ++ '\n' :: B))), splitNL_single hM1n,
      rlines_append (w ++ '#' :: k :: kr) (M2 ++ '\n' :: ("---".data ++ '\n' :: B)),
      splitNL_single hC,
      rlines_append M2 ("---".data ++ '\n' :: B), splitNL_single hM2n,
      rlines_append "---".data B, splitNL_single hdn]
    simp [stripCR_eq_self hM1r, stripCR_eq_self hCr, stripCR_eq_self hM2r,
      stripCR_eq_self (show '\r' ∉ ("---".data : List Char) from by decide)]
  have hBCC : BCLine (w ++ '#' :: k :: kr) := by
    refine ⟨hC, Or.inr ⟨?_, ?_⟩⟩
    · rw [dropWhile_ws_append hw,
        List.dropWhile_cons_of_neg (by simp [rustIsWhitespace])]
      rfl
    · rw [dropWhile_ws_append hw,
        List.dropWhile_cons_of_neg (by simp [rustIsWhitespace])]
      simp only [List.length_cons]
      omega
  have hnoclose : ∀ l ∈ [M1, w ++ '#' :: k :: kr, M2], trimEnd l ≠ "---".data := by
    intro l hl
    rcases List.mem_cons.1 hl with h1 | h1
    · rw [h1]; exact hM1f
    rcases List.mem_cons.1 h1 with h2 | h2
    · rw [h2]
      exact bcline_trimEnd_ne hBCC
        (show ("---".data : List Char).head? = some '-' from by decide)
        (by decide) (by decide)
    rcases List.mem_cons.1 h2 with h3 | h3
    · rw [h3]; exact hM2f
    · simp at h3
  rw [hrl, List.foldlM_append,
    foldlM_matter_no_close e "---".data (ed.getD "---".data)
      [M1, w ++ '#' :: k :: kr, M2] ⟨Part.Matter, [], none, [], none⟩ rfl hnoclose]
  have hbind1 : (do
      let b ← some (⟨Part.Matter, [] ++ flattenR [M1, w ++ '#' :: k :: kr, M2],
        none, [], none⟩ : ScanState α)
      ("---".data :: rlines B).foldlM (scanLine e "---".data (ed.getD "---".data)) b) =
      ("---".data :: rlines B).foldlM (scanLine e "---".data (ed.getD "---".data))
        ⟨Part.Matter, [] ++ flattenR [M1, w ++ '#' :: k :: kr, M2], none, [], none⟩ := rfl
  rw [hbind1, List.foldlM_cons]
  rcases trim_self_head hM1t hM10 with ⟨cm1, M1x, hM1cons, hcm1⟩
  have hcmX1 : commentMatch (M1 ++ '\n' :: ((w ++ '#' :: k :: kr) ++ '\n' ::
      (M2 ++ '\n' :: "---".data))) = none :=
    commentMatch_trimmed_head hM10 hM1t hM1c
  have hcmX2 : commentMatch (M2 ++ '\n' :: "---".data) = none :=
    commentMatch_trimmed_head hM20 hM2t hM2c
  have hcm0 : commentMatch ('\n' :: (M1 ++ '\n' :: ((w ++ '#' :: k :: kr) ++ '\n' ::
      (M2 ++ '\n' :: "---".data)))) = none := by
    rw [commentMatch_cons_ws (by simp [rustIsWhitespace])]
    exact hcmX1
  have hscan : ∀ f, ('\n' :: (M1 ++ '\n' :: ((w ++ '#' :: k :: kr) ++ '\n' ::
      (M2 ++ '\n' :: "---".data)))).length < f →
      stripCommentsAux f true ('\n' :: (M1 ++ '\n' :: ((w ++ '#' :: k :: kr) ++ '\n' ::
        (M2 ++ '\n' :: "---".data)))) =
      '\n' :: (M1 ++ '\n' :: '\n' :: (M2 ++ '\n' :: "---".data)) := by
    intro f hf
    rw [stripCommentsAux_nl_step' f true hcm0 hf,
      stripCommentsAux_true_line f hM1n hM10 hcmX1
        (by simp only [List.length_cons, List.length_append] at hf ⊢; omega),
      stripCommentsAux_false_nl ((w ++ '#' :: k :: kr) ++ '\n' ::
        (M2 ++ '\n' :: "---".data)) f
        (by simp only [List.length_cons, List.length_append] at hf ⊢; omega),
      stripCommentsAux_comment_line f hw hk hkr
        (by simp only [List.length_cons, List.length_append] at hf ⊢; omega),
      stripCommentsAux_false_nl (M2 ++ '\n' :: "---".data) f
        (by simp only [List.length_cons, List.length_append] at hf ⊢; omega),
      stripCommentsAux_true_line f hM2n hM20 hcmX2
        (by simp only [List.length_cons, List.length_append] at hf ⊢; omega),
      stripCommentsAux_false_nl "---".data f
        (by simp only [List.length_cons, List.length_append] at hf ⊢; omega),
      stripCommentsAux_no_newline (show '\n' ∉ ("---".data : List Char) from by decide)
        (by decide) f true
        (by
          have h3 : ("---".data : List Char).length = 3 := rfl
          rw [h3]
          simp only [List.length_cons, List.length_append] at hf
          omega)]
  have hacc : (([] : List Char) ++ flattenR [M1, w ++ '#' :: k :: kr, M2]) ++
      '\n' :: "---".data =
      '\n' :: (M1 ++ '\n' :: ((w ++ '#' :: k :: kr) ++ '\n' ::
        (M2 ++ '\n' :: "---".data))) := by
    simp [flattenR]
  have htrim6 : trim ('\n' :: (M1 ++ '\n' :: '\n' :: (M2 ++ '\n' :: "---".data))) =
      M1 ++ '\n' :: '\n' :: (M2 ++ '\n' :: "---".data) := by
    have hd3 : ("---".data : List Char) = "--".data ++ ['-'] := rfl
    have hel6 : ('\n' :: (M2 ++ '\n' :: "---".data)).getLast? = some '-' := by
      rw [show '\n' :: (M2 ++ '\n' :: "---".data) =
        ('\n' :: (M2 ++ '\n' :: "--".data)) ++ ['-'] from by rw [hd3]; simp,
        List.getLast?_concat]
    exact trim_wrap (show M1.head? = some cm1 from by rw [hM1cons]; rfl) hcm1
      hel6 (by decide)
  have hss6 : stripSuffix (M1 ++ '\n' :: '\n' :: (M2 ++ '\n' :: "---".data))
      "---".data = some (M1 ++ '\n' :: '\n' :: (M2 ++ ['\n'])) := by
    have h2 := stripSuffix_append (M1 ++ '\n' :: '\n' :: (M2 ++ ['\n'])) "---".data
    rw [show (M1 ++ '\n' :: '\n' :: (M2 ++ ['\n'])) ++ "---".data =
      M1 ++ '\n' :: '\n' :: (M2 ++ '\n' :: "---".data) from by simp] at h2
    exact h2
  have hstrip6 : stripSuffix (trim (stripComments
      ((([] : List Char) ++ flattenR [M1, w ++ '#' :: k :: kr, M2]) ++
        '\n' :: "---".data))) "---".data =
      some (M1 ++ '\n' :: '\n' :: (M2 ++ ['\n'])) := by
    rw [hacc]
    unfold stripComments
    rw [hscan _ (Nat.lt_succ_self _), htrim6, hss6]
  have htm6 : trimMatchesNL (M1 ++ '\n' :: '\n' :: (M2 ++ ['\n'])) =
      M1 ++ '\n' :: '\n' :: M2 := by
    have h2 : (M1 ++ '\n' :: '\n' :: M2) ++ ['\n'] =
        M1 ++ '\n' :: '\n' :: (M2 ++ ['\n']) := by simp
    rw [← h2]
    refine trimMatchesNL_append_nl ?_ ?_
    · intro c hc h
      rw [hM1cons] at hc
      simp at hc
      subst hc
      rw [h] at hcm1
      simp [rustIsWhitespace] at hcm1
    · intro c hc h
      rcases trim_self_getLast hM2t hM20 with ⟨el2, hel2, hwel2⟩
      rcases List.getLast?_eq_some_iff.1 hel2 with ⟨y2, hy2⟩
      rw [show M1 ++ '\n' :: '\n' :: M2 = (M1 ++ '\n' :: '\n' :: y2) ++ [el2] from by
        rw [hy2]; simp, List.getLast?_concat] at hc
      simp at hc
      subst hc
      rw [h] at hwel2
      simp [rustIsWhitespace] at hwel2
  have hstep : scanLine e "---".data (ed.getD "---".data)
      ⟨Part.Matter, [] ++ flattenR [M1, w ++ '#' :: k :: kr, M2], none, [], none⟩
      "---".data =
      some ⟨Part.MaybeExcerpt, [], some (e (M1 ++ '\n' :: '\n' :: M2)),
        M1 ++ '\n' :: '\n' :: M2, none⟩ := by
    unfold scanLine
    rw [if_pos (by decide)]
    simp only [hstrip6]
    rw [htm6, if_neg (by rw [hM1cons]; simp)]
  rw [hstep]
  have hbind2 : (do
      let b ← some (⟨Part.MaybeExcerpt, [], some (e (M1 ++ '\n' :: '\n' :: M2)),
        M1 ++ '\n' :: '\n' :: M2, none⟩ : ScanState α)
      (rlines B).foldlM (scanLine e "---".data (ed.getD "---".data)) b) =
      (rlines B).foldlM (scanLine e "---".data (ed.getD "---".data))
        ⟨Part.MaybeExcerpt, [], some (e (M1 ++ '\n' :: '\n' :: M2)),
          M1 ++ '\n' :: '\n' :: M2, none⟩ := rfl
  rw [hbind2]
  rcases foldlM_after_matter e "---".data (ed.getD "---".data) hedEff (rlines B)
    ⟨Part.MaybeExcerpt, [], some (e (M1 ++ '\n' :: '\n' :: M2)),
      M1 ++ '\n' :: '\n' :: M2, none⟩ (Or.inl rfl) (rlines_no_newline B) with
    ⟨st3, hfold3, hacc3, hdata3, hmat3, _⟩
  rw [hfold3, finalize_some]
  simp only [Option.map_some']
  rw [hdata3, hmat3, hacc3]
  dsimp only
  rw [List.nil_append, trim_flattenR_rlines hBr]

/-- C6, witness: the amended theorem evaluated with the identity engine on
`M1 = "a: 1"`, comment line `"# c"`, `M2 = "b: 2"`, `B = "X"`. -/
theorem c6_witness :
    (parse (fun l => l) "---".data none
      ("---".data ++ '\n' :: ("a: 1".data ++ '\n' :: (([] ++ '#' :: ' ' :: "c".data) ++
        '\n' :: ("b: 2".data ++ '\n' :: ("---".data ++ '\n' :: "X".data)))))).map
      (fun p => (p.data, p.matter, p.content)) =
      some (some ("a: 1".data ++ '\n' :: '\n' :: "b: 2".data),
        "a: 1".data ++ '\n' :: '\n' :: "b: 2".data, trim "X".data) :=
  c6_comment_strip (fun l => l) none "a: 1".data "b: 2".data [] "c".data "X".data ' '
    (by decide) (by decide) (by decide) (by decide) (by decide) (by decide)
    (by decide) (by decide) (by decide) (by decide) (by decide) (by decide)
    (by decide) (by decide) (by decide) (by decide) (by decide) (by decide)
    (by decide) (by decide)
    (fun edv h => nomatch h)

end GrayMatter
